import Mathlib

/-!
Verification of the storage-management core of the `bplustree` repository
(`src/primer/trie.cpp`, `src/buffer/lru_k_replacer.cpp`,
`src/buffer/buffer_pool_manager.cpp`).

The C++ code is shallowly embedded:

* the copy-on-write trie (`Trie::Get` / `Trie::Put` / `Trie::Remove`) becomes a
  pure tree model, with the iterative path-vector algorithms rendered as
  structural recursions over the key (each case of the recursion is mapped to
  the corresponding source lines in the doc comments);
* a second, store-passing model of `Trie::Put` makes the heap explicit
  (`shared_ptr` cells become addresses into an append-only store, and the
  in-place writes the algorithm performs on its freshly cloned nodes become
  explicit store updates), so that the immutability of a published trie version
  is a provable statement rather than a modelling artefact;
* the LRU-K replacer and the buffer pool manager become explicit state
  machines.  Every public method holds its single mutex for the whole call, and
  the disk scheduler is a single worker drained synchronously through a
  completion future the caller blocks on, so a method call is one atomic state
  transition.

`std::map<char, ...>` is modelled by an association list; the map's ordering
by key is irrelevant to every observation made here (only `find` / `count` /
`operator[]` / `erase` / `size` are used by the source), so the model does not
keep the list sorted, and the impossibility of duplicate keys in a `std::map`
becomes an explicit `nodupChildKeys` hypothesis where a proof needs it.
-/

/-! ### Association lists (model of `std::map<char, std::shared_ptr<const TrieNode>>`) -/

/-- Model of `map.find(c)` / `map.at(c)` / `map[c]` (read): the value at the first
entry with key `c`. -/
def lookupA {α : Type} : List (Nat × α) → Nat → Option α
  | [], _ => none
  | (c2, y) :: rest, c => if c2 = c then some y else lookupA rest c

/-- Model of `map[c] = x`: replace the (unique) entry with key `c`, or append a new
entry. -/
def insertA {α : Type} : List (Nat × α) → Nat → α → List (Nat × α)
  | [], c, x => [(c, x)]
  | (c2, y) :: rest, c, x => if c2 = c then (c, x) :: rest else (c2, y) :: insertA rest c x

/-- Model of `map.erase(c)`: drop the (unique) entry with key `c`. -/
def eraseA {α : Type} : List (Nat × α) → Nat → List (Nat × α)
  | [], _ => []
  | (c2, y) :: rest, c => if c2 = c then rest else (c2, y) :: eraseA rest c

theorem lookupA_insertA_self {α : Type} (l : List (Nat × α)) (c : Nat) (x : α) :
    lookupA (insertA l c x) c = some x := by
  induction l with
  | nil => simp [insertA, lookupA]
  | cons p rest ih =>
    obtain ⟨c2, y⟩ := p
    by_cases h : c2 = c
    · simp [insertA, lookupA, h]
    · simp [insertA, lookupA, h, ih]

theorem lookupA_insertA_ne {α : Type} (l : List (Nat × α)) (c c2 : Nat) (x : α)
    (h : c2 ≠ c) : lookupA (insertA l c x) c2 = lookupA l c2 := by
  induction l with
  | nil => simp [insertA, lookupA, Ne.symm h]
  | cons p rest ih =>
    obtain ⟨c3, y⟩ := p
    by_cases h3 : c3 = c
    · subst h3
      simp [insertA, lookupA, Ne.symm h, h]
    · by_cases h4 : c3 = c2
      · simp [insertA, lookupA, h3, h4, h]
      · simp [insertA, lookupA, h3, h4, ih]

theorem lookupA_eraseA_ne {α : Type} (l : List (Nat × α)) (c c2 : Nat)
    (h : c2 ≠ c) : lookupA (eraseA l c) c2 = lookupA l c2 := by
  induction l with
  | nil => simp [eraseA]
  | cons p rest ih =>
    obtain ⟨c3, y⟩ := p
    by_cases h3 : c3 = c
    · subst h3
      simp [eraseA, lookupA, Ne.symm h]
    · by_cases h4 : c3 = c2
      · simp [eraseA, lookupA, h3, h4, h]
      · simp [eraseA, lookupA, h3, h4, ih]

theorem mem_of_lookupA {α : Type} {l : List (Nat × α)} {c : Nat} {x : α}
    (h : lookupA l c = some x) : (c, x) ∈ l := by
  induction l with
  | nil => simp [lookupA] at h
  | cons p rest ih =>
    obtain ⟨c2, y⟩ := p
    by_cases h2 : c2 = c
    · subst h2
      simp [lookupA] at h
      simp [h]
    · simp [lookupA, h2] at h
      exact List.mem_cons_of_mem _ (ih h)

theorem mem_insertA {α : Type} {l : List (Nat × α)} {c : Nat} {x : α} {p : Nat × α}
    (h : p ∈ insertA l c x) : p = (c, x) ∨ p ∈ l := by
  induction l with
  | nil => simpa [insertA] using h
  | cons q rest ih =>
    obtain ⟨c2, y⟩ := q
    by_cases h2 : c2 = c
    · subst h2
      simp [insertA] at h
      rcases h with h | h
      · exact Or.inl h
      · exact Or.inr (List.mem_cons_of_mem _ h)
    · simp [insertA, h2] at h
      rcases h with h | h
      · exact Or.inr (by simp [h])
      · rcases ih h with h3 | h3
        · exact Or.inl h3
        · exact Or.inr (List.mem_cons_of_mem _ h3)

theorem eraseA_sublist {α : Type} (l : List (Nat × α)) (c : Nat) :
    (eraseA l c).Sublist l := by
  induction l with
  | nil => simp [eraseA]
  | cons p rest ih =>
    obtain ⟨c2, y⟩ := p
    by_cases h2 : c2 = c
    · simp [eraseA, h2]
    · simp [eraseA, h2]
      exact ih

theorem mem_of_mem_eraseA {α : Type} {l : List (Nat × α)} {c : Nat} {p : Nat × α}
    (h : p ∈ eraseA l c) : p ∈ l :=
  (eraseA_sublist l c).mem h

/-- Keys of an association list. -/
def keysA {α : Type} (l : List (Nat × α)) : List Nat := l.map Prod.fst

theorem lookupA_eraseA_self {α : Type} {l : List (Nat × α)} (c : Nat)
    (hnd : (keysA l).Nodup) : lookupA (eraseA l c) c = none := by
  induction l with
  | nil => simp [eraseA, lookupA]
  | cons p rest ih =>
    obtain ⟨c2, y⟩ := p
    simp [keysA] at hnd
    by_cases h2 : c2 = c
    · subst h2
      cases hlook : lookupA rest c2 with
      | none => simp [eraseA, hlook]
      | some x =>
        exact absurd (mem_of_lookupA hlook) (hnd.1 x)
    · simp [eraseA, lookupA, h2]
      exact ih hnd.2

theorem eraseA_length {α : Type} {l : List (Nat × α)} {c : Nat} {x : α}
    (h : lookupA l c = some x) : (eraseA l c).length + 1 = l.length := by
  induction l with
  | nil => simp [lookupA] at h
  | cons p rest ih =>
    obtain ⟨c2, y⟩ := p
    by_cases h2 : c2 = c
    · simp [eraseA, h2]
    · simp [lookupA, h2] at h
      simp [eraseA, h2, ih h]

theorem singleton_of_lookupA_of_len_le {α : Type} {l : List (Nat × α)} {c : Nat} {x : α}
    (h : lookupA l c = some x) (hlen : l.length ≤ 1) : l = [(c, x)] := by
  cases l with
  | nil => simp [lookupA] at h
  | cons p rest =>
    obtain ⟨c2, y⟩ := p
    cases rest with
    | nil =>
      by_cases h2 : c2 = c
      · subst h2
        simp [lookupA] at h
        simp [h]
      · simp [lookupA, h2] at h
    | cons q rest2 => simp at hlen

theorem insertA_ne_nil {α : Type} (l : List (Nat × α)) (c : Nat) (x : α) :
    insertA l c x ≠ [] := by
  cases l with
  | nil => simp [insertA]
  | cons p rest =>
    obtain ⟨c2, y⟩ := p
    by_cases h2 : c2 = c <;> simp [insertA, h2]

/-! ### The trie data model (`TrieNode`, `TrieNodeWithValue<T>`, `Trie`)

A payload is modelled as a pair of a runtime type tag (the `T` of
`TrieNodeWithValue<T>`; `dynamic_cast<const TrieNodeWithValue<T>*>` succeeds
exactly when the tags agree) and the payload bits.  `TrieNode` and its value
subclass collapse into one constructor whose `value` field is `some` exactly
when `is_value_node_` is `true` (the source only ever sets `is_value_node_`
through `TrieNodeWithValue`, and `Clone` preserves the variant). -/

/-- A typed payload: `tag` models the C++ type `T`, `data` the value bits. -/
structure TVal where
  tag : Nat
  data : Nat
deriving DecidableEq, Repr

/-- A trie node: a child map from byte to node, and the optional payload. -/
inductive TrieNode where
  | mk : List (Nat × TrieNode) → Option TVal → TrieNode

/-- The node's child map (`children_`). -/
def TrieNode.children : TrieNode → List (Nat × TrieNode)
  | .mk cs _ => cs

/-- The node's payload: `some` iff `is_value_node_` (see the model notes). -/
def TrieNode.value : TrieNode → Option TVal
  | .mk _ v => v

/-- A trie is a handle on an optional shared root (`root_`); the empty trie
has no root. -/
abbrev Trie := Option TrieNode

/-- The walk of `Trie::Get` (trie.cpp lines 22-28): follow each byte of the
key through the child maps; a missing child aborts with `none`. -/
def walkT (n : TrieNode) : List Nat → Option TrieNode
  | [] => some n
  | c :: cs =>
    match lookupA n.children c with
    | none => none
    | some ch => walkT ch cs

/-- Model of `Trie::Get<T>` (trie.cpp lines 7-38): walk the key from the root; fail on
a missing root, a missing child, a non-value terminal node, or a payload whose
runtime type differs from `T` (the `dynamic_cast` check). -/
def Trie.Get (t : Trie) (tag : Nat) (key : List Nat) : Option Nat :=
  match t with
  | none => none
  | some root =>
    match walkT root key with
    | none => none
    | some n =>
      match n.value with
      | none => none
      | some v => if v.tag = tag then some v.data else none

/-- Type-agnostic observation: the payload stored at `key`, if any.
`Trie.Get t tag key` filters this through the type tag. -/
def Trie.GetVal (t : Trie) (key : List Nat) : Option TVal :=
  match t with
  | none => none
  | some root =>
    match walkT root key with
    | none => none
    | some n => n.value

/-- Whether `key` is present in `t`: the walk ends at a value node. -/
def Trie.hasKey (t : Trie) (key : List Nat) : Bool :=
  (Trie.GetVal t key).isSome

/-- The bottom-up chain construction of `Trie::Put` for a null root
(trie.cpp lines 54-62): iterate the key in reverse, wrapping the value node
into single-child internal nodes. -/
def buildChain (key : List Nat) (vnode : TrieNode) : TrieNode :=
  key.foldr (fun c acc => TrieNode.mk [(c, acc)] none) vnode

/-- The copy-on-write loop of `Trie::Put` (trie.cpp lines 71-94) rendered as a
recursion over the key (nonempty by the preceding `key.empty()` test).

* `[c]` (the final iteration plus lines 88-93): the terminal child is cloned
  (or freshly created); the new value node takes over its children when they
  are nonempty (line 89-91 — the same node results when they are empty), and
  `pre_node->children_[key.back()]` is overwritten with the value node
  (line 93), discarding the terminal clone.
* `c :: c2 :: cs` (one loop iteration, lines 76-87): clone the child on the
  path (or create an empty internal node for a missing edge) and recurse;
  `p->children_[c] = new_node` becomes the `insertA`. -/
def putGo (n : TrieNode) (v : TVal) : Nat → List Nat → TrieNode
  | c, [] =>
    let childChildren :=
      match lookupA n.children c with
      | some ch => ch.children
      | none => []
    TrieNode.mk (insertA n.children c (TrieNode.mk childChildren (some v))) n.value
  | c, c2 :: cs =>
    let ch :=
      match lookupA n.children c with
      | some ch => ch
      | none => TrieNode.mk [] none
    TrieNode.mk (insertA n.children c (putGo ch v c2 cs)) n.value

/-- Model of `Trie::Put<T>` (trie.cpp lines 41-95).

* null root (lines 54-62): build the chain bottom-up;
* empty key (lines 65-69): the new root is a value node carrying the old
  root's children;
* otherwise (lines 71-94): the copy-on-write path copy `putGo`. -/
def Trie.Put (t : Trie) (key : List Nat) (v : TVal) : Trie :=
  match t with
  | none => some (buildChain key (TrieNode.mk [] (some v)))
  | some root =>
    match key with
    | [] => some (TrieNode.mk root.children (some v))
    | c :: cs => some (putGo root v c cs)

/-- Phase one of `Trie::Remove` (trie.cpp lines 102-114): check that every
edge of the key exists (the source collects the nodes into `path`; only
existence is needed afterwards, the nodes are re-read by the recursion). -/
def hasPathT (n : TrieNode) : List Nat → Bool
  | [] => true
  | c :: cs =>
    match lookupA n.children c with
    | none => false
    | some ch => hasPathT ch cs

/-- Phase two of `Trie::Remove` (trie.cpp lines 116-148) rendered as a
recursion over the key; `none` means this node is deleted (pruned).

* `[]` — the terminal node:
  - no children (line 122): the node is deleted (the back-walk of lines
    123-133 then runs in the parent cases below);
  - children and a value (lines 137-141): converted to a non-value node with
    the same children;
  - children and no value (the key is absent although its full path exists):
    the fresh `clone_node` of line 116 is left in place of the node — this is
    what the source does, and it drops the node's subtree.
* `c :: cs` — an ancestor, with the child on the path already processed:
  - child deleted, and this node holds a value or another child
    (line 124, the `copy_rest` boundary): clone with the edge erased
    (line 126-127);
  - child deleted otherwise: this node is deleted too (the cascade:
    the loop of lines 123-133 skips it);
  - child kept (lines 128-132 / 143-147): clone with the edge redirected to
    the new child. -/
def removeGo (n : TrieNode) : List Nat → Option TrieNode
  | [] =>
    if n.children.isEmpty then none
    else if n.value.isSome then some (TrieNode.mk n.children none)
    else some (TrieNode.mk [] none)
  | c :: cs =>
    match lookupA n.children c with
    | none => some n
    | some ch =>
      match removeGo ch cs with
      | none =>
        if n.value.isSome || decide (1 < n.children.length) then
          some (TrieNode.mk (eraseA n.children c) n.value)
        else none
      | some ch2 => some (TrieNode.mk (insertA n.children c ch2) n.value)

/-- Model of `Trie::Remove` (trie.cpp lines 97-155).  The outer `Option` models
undefined behaviour: on an empty trie the source dereferences the null root
(line 104/107 for a nonempty key, line 122 for the empty key), so the result
is `none`; every defined execution yields `some`.

For a missing edge the source returns `*this` (line 110).  Otherwise phase
two runs, and the final root check (lines 150-152) replaces a root left with
no children and no value by the empty trie. -/
def Trie.Remove (t : Trie) (key : List Nat) : Option Trie :=
  match t with
  | none => none
  | some root =>
    if hasPathT root key then
      some (match removeGo root key with
        | none => none
        | some r =>
          if r.children.isEmpty && !r.value.isSome then none else some r)
    else some (some root)

/-! ### C1: put/get round trip -/

theorem walkT_buildChain (key : List Nat) (vnode : TrieNode) :
    walkT (buildChain key vnode) key = some vnode := by
  induction key with
  | nil => simp [buildChain, walkT]
  | cons c cs ih =>
    simp [buildChain, walkT, TrieNode.children, lookupA]
    exact ih

theorem walkT_putGo (v : TVal) (cs : List Nat) :
    ∀ (c : Nat) (n : TrieNode), ∃ childList : List (Nat × TrieNode),
      walkT (putGo n v c cs) (c :: cs) = some (TrieNode.mk childList (some v)) := by
  induction cs with
  | nil =>
    intro c n
    refine ⟨(match lookupA n.children c with
      | some ch => ch.children
      | none => []), ?_⟩
    simp [putGo, walkT, TrieNode.children, lookupA_insertA_self]
  | cons c2 cs2 ih =>
    intro c n
    obtain ⟨cl, hcl⟩ := ih c2 (match lookupA n.children c with
      | some ch => ch
      | none => TrieNode.mk [] none)
    refine ⟨cl, ?_⟩
    simp [putGo, walkT, TrieNode.children, lookupA_insertA_self]
    simpa [walkT] using hcl

/-- C1: for every trie `t`, key `k` and typed value `v`, the trie returned by
`t.put(k, v)` satisfies `get::<T>(k) == Some(v)`: the stored payload is
observed back with the same type tag and the same bits. -/
theorem trie_put_get_roundtrip (t : Trie) (key : List Nat) (v : TVal) :
    Trie.Get (Trie.Put t key v) v.tag key = some v.data := by
  match t with
  | none =>
    simp [Trie.Put, Trie.Get, walkT_buildChain, TrieNode.value]
  | some root =>
    match key with
    | [] =>
      simp [Trie.Put, Trie.Get, walkT, TrieNode.value]
    | c :: cs =>
      obtain ⟨cl, hcl⟩ := walkT_putGo v cs c root
      simp [Trie.Put, Trie.Get, hcl, TrieNode.value]

/-! ### Structural invariants of trie nodes

`WfLeaf` is the spec's invariant "every leaf is a value node" (no dangling
branch ends in a node with neither value nor children).  `NodupKeys` states
that every child map has pairwise distinct keys — automatic for the source's
`std::map`, an explicit hypothesis for the association-list model. -/

/-- Every leaf below (and including) this node is a value node. -/
inductive WfLeaf : TrieNode → Prop where
  | intro (cs : List (Nat × TrieNode)) (v : Option TVal)
      (hleaf : cs = [] → v.isSome = true)
      (hch : ∀ c ch, (c, ch) ∈ cs → WfLeaf ch) :
      WfLeaf (TrieNode.mk cs v)

/-- Every child map below (and including) this node has distinct keys
(the `std::map` representation invariant). -/
inductive NodupKeys : TrieNode → Prop where
  | intro (cs : List (Nat × TrieNode)) (v : Option TVal)
      (hnd : (keysA cs).Nodup)
      (hch : ∀ c ch, (c, ch) ∈ cs → NodupKeys ch) :
      NodupKeys (TrieNode.mk cs v)

theorem WfLeaf.childWf {n : TrieNode} (h : WfLeaf n) {c : Nat} {ch : TrieNode}
    (hmem : (c, ch) ∈ n.children) : WfLeaf ch := by
  cases h with
  | intro cs v hleaf hch => exact hch c ch hmem

theorem WfLeaf.leafCase {n : TrieNode} (h : WfLeaf n) (hnil : n.children = []) :
    n.value.isSome = true := by
  cases h with
  | intro cs v hleaf hch => exact hleaf hnil

theorem NodupKeys.childNd {n : TrieNode} (h : NodupKeys n) {c : Nat} {ch : TrieNode}
    (hmem : (c, ch) ∈ n.children) : NodupKeys ch := by
  cases h with
  | intro cs v hnd hch => exact hch c ch hmem

theorem NodupKeys.keys {n : TrieNode} (h : NodupKeys n) : (keysA n.children).Nodup := by
  cases h with
  | intro cs v hnd hch => exact hnd

/-- Trie-level leaf invariant; the empty trie is well formed. -/
def Trie.Wf : Trie → Prop
  | none => True
  | some n => WfLeaf n

/-- Trie-level distinct-keys invariant. -/
def Trie.NodupT : Trie → Prop
  | none => True
  | some n => NodupKeys n

/-- The node-level observation underlying `Trie.GetVal`. -/
def nGetVal (n : TrieNode) (key : List Nat) : Option TVal :=
  match walkT n key with
  | none => none
  | some m => m.value

theorem nGetVal_nil (n : TrieNode) : nGetVal n [] = n.value := rfl

theorem nGetVal_cons (n : TrieNode) (c : Nat) (cs : List Nat) :
    nGetVal n (c :: cs) =
      (match lookupA n.children c with
       | none => none
       | some ch => nGetVal ch cs) := by
  cases h : lookupA n.children c <;> simp [nGetVal, walkT, h]

theorem getVal_some (root : TrieNode) (key : List Nat) :
    Trie.GetVal (some root) key = nGetVal root key := by
  cases h : walkT root key <;> simp [Trie.GetVal, nGetVal, h]

/-- Relation: `Trie.Get` is `Trie.GetVal` filtered through the type tag. -/
theorem get_eq_getVal (t : Trie) (tag : Nat) (key : List Nat) :
    Trie.Get t tag key =
      (match Trie.GetVal t key with
       | none => none
       | some v => if v.tag = tag then some v.data else none) := by
  match t with
  | none => rfl
  | some root => cases h : walkT root key <;> simp [Trie.Get, Trie.GetVal, h]

/-! ### C2 / C9: the absent-key bug of `Trie::Remove`

When the key is absent but its full path exists (its terminal node holds no
value), phase two of `Trie::Remove` starts from the fresh empty `clone_node`
(trie.cpp line 116) because the conversion at lines 137-141 is guarded by
`is_value_node_`; the back-walk then grafts that empty node in place of the
terminal, destroying the terminal's subtree.  Concretely: inserting key
`[97, 98]` ("ab") and removing the absent key `[97]` ("a") loses "ab" and
leaves a dangling non-value leaf. -/

/-- C2 (code bug): removing the absent key `"a"` from the trie `{"ab" ↦ v}`
does not return an observationally equal trie — the binding of `"ab"` is
destroyed, and the result holds a dangling empty node at `"a"`. -/
theorem trie_remove_absent_key_bug :
    Trie.GetVal (Trie.Put (none : Trie) [97, 98] ⟨0, 1⟩) [97] = none ∧
    Trie.Remove (Trie.Put (none : Trie) [97, 98] ⟨0, 1⟩) [97] =
      some (some (TrieNode.mk [(97, TrieNode.mk [] none)] none)) ∧
    Trie.Get (Trie.Put (none : Trie) [97, 98] ⟨0, 1⟩) 0 [97, 98] = some 1 ∧
    Trie.Get (some (TrieNode.mk [(97, TrieNode.mk [] none)] none)) 0 [97, 98] = none :=
  ⟨rfl, rfl, rfl, rfl⟩

/-- C9 (code bug): a trie reachable from the empty trie by one `put` and one
`remove` contains a leaf that is not a value node. -/
theorem trie_reachable_dangling_leaf :
    Trie.Remove (Trie.Put (none : Trie) [97, 98] ⟨0, 1⟩) [97] =
      some (some (TrieNode.mk [(97, TrieNode.mk [] none)] none)) ∧
    ¬ WfLeaf (TrieNode.mk [(97, TrieNode.mk [] none)] none) := by
  refine ⟨rfl, ?_⟩
  intro h
  have hch : WfLeaf (TrieNode.mk [] none) :=
    h.childWf (c := 97) (by simp [TrieNode.children])
  have := hch.leafCase (by simp [TrieNode.children])
  simp [TrieNode.value] at this

/-! ### Functional correctness of `Trie::Remove` on present keys (C4) -/

theorem hasPathT_of_getVal :
    ∀ (k : List Nat) (n : TrieNode), (nGetVal n k).isSome = true → hasPathT n k = true := by
  intro k
  induction k with
  | nil => intro n _; rfl
  | cons c cs ih =>
    intro n h
    rw [nGetVal_cons] at h
    cases hlook : lookupA n.children c with
    | none => rw [hlook] at h; simp at h
    | some ch =>
      rw [hlook] at h
      simp [hasPathT, hlook]
      exact ih ch h

/-- If phase two prunes the whole subtree, the removed key was the only key
in it (the cascade of trie.cpp lines 123-133 reaches past the root of the
subtree only when every ancestor had no value and a single child). -/
theorem removeGo_none_only_key :
    ∀ (k : List Nat) (n : TrieNode), (nGetVal n k).isSome = true →
      removeGo n k = none → ∀ k2, k2 ≠ k → nGetVal n k2 = none := by
  intro k
  induction k with
  | nil =>
    intro n hk hrem k2 hk2
    simp only [removeGo] at hrem
    cases hempty : n.children.isEmpty with
    | false => rw [hempty] at hrem; by_cases hv : n.value.isSome <;> simp [hv] at hrem
    | true =>
      cases k2 with
      | nil => exact absurd rfl hk2
      | cons c2 cs2 =>
        rw [nGetVal_cons]
        rw [List.isEmpty_iff] at hempty
        simp [hempty, lookupA]
  | cons c cs ih =>
    intro n hk hrem k2 hk2
    rw [nGetVal_cons] at hk
    cases hlook : lookupA n.children c with
    | none => rw [hlook] at hk; simp at hk
    | some ch =>
      rw [hlook] at hk
      simp only [removeGo, hlook] at hrem
      cases hrch : removeGo ch cs with
      | some ch2 => rw [hrch] at hrem; simp at hrem
      | none =>
        rw [hrch] at hrem
        by_cases hcond : (n.value.isSome || decide (1 < n.children.length)) = true
        · rw [hcond] at hrem; simp at hrem
        · simp only [Bool.not_eq_true, Bool.or_eq_false_iff] at hcond
          obtain ⟨hval, hlen⟩ := hcond
          have hlen2 : n.children.length ≤ 1 := by
            have := of_decide_eq_false hlen
            omega
          have hsing : n.children = [(c, ch)] :=
            singleton_of_lookupA_of_len_le hlook hlen2
          cases k2 with
          | nil =>
            rw [nGetVal_nil]
            cases hv : n.value with
            | none => rfl
            | some tv => rw [hv] at hval; simp at hval
          | cons c2 cs2 =>
            rw [nGetVal_cons]
            by_cases hc2 : c2 = c
            · subst hc2
              have hcs2 : cs2 ≠ cs := by
                intro h
                subst h
                exact hk2 rfl
              rw [hlook]
              exact ih ch hk hrch cs2 hcs2
            · rw [hsing]
              simp [lookupA, Ne.symm hc2]

/-- The result of phase two on a present key is never a node with no
children and no value: the final root check of trie.cpp lines 150-152 keeps
it. -/
theorem removeGo_value_or_children :
    ∀ (k : List Nat) (n : TrieNode), (nGetVal n k).isSome = true →
      ∀ m, removeGo n k = some m →
        m.children.isEmpty = false ∨ m.value.isSome = true := by
  intro k
  induction k with
  | nil =>
    intro n hk m hrem
    simp only [removeGo] at hrem
    cases hempty : n.children.isEmpty with
    | true => rw [hempty] at hrem; simp at hrem
    | false =>
      rw [hempty] at hrem
      rw [nGetVal_nil] at hk
      rw [hk] at hrem
      simp at hrem
      left
      rw [← hrem]
      simpa [TrieNode.children] using hempty
  | cons c cs ih =>
    intro n hk m hrem
    rw [nGetVal_cons] at hk
    cases hlook : lookupA n.children c with
    | none => rw [hlook] at hk; simp at hk
    | some ch =>
      rw [hlook] at hk
      simp only [removeGo, hlook] at hrem
      cases hrch : removeGo ch cs with
      | none =>
        rw [hrch] at hrem
        cases hcond : (n.value.isSome || decide (1 < n.children.length)) with
        | false => rw [hcond] at hrem; simp at hrem
        | true =>
          rw [hcond] at hrem
          simp at hrem
          rcases Bool.or_eq_true_iff.mp hcond with hval | hlen
          · right; rw [← hrem]; simpa [TrieNode.value] using hval
          · left
            rw [← hrem]
            simp only [TrieNode.children]
            have h1 := of_decide_eq_true hlen
            have h2 := eraseA_length hlook
            rw [List.isEmpty_eq_false_iff_exists_mem]
            have h3 : 0 < (eraseA n.children c).length := by omega
            obtain ⟨p, hp⟩ := List.exists_mem_of_length_pos h3
            exact ⟨p, hp⟩
      | some ch2 =>
        rw [hrch] at hrem
        simp at hrem
        left
        rw [← hrem]
        simp only [TrieNode.children]
        rw [List.isEmpty_eq_false_iff_exists_mem]
        have h3 : insertA n.children c ch2 ≠ [] := insertA_ne_nil _ _ _
        obtain ⟨p, hp⟩ := List.exists_mem_of_length_pos (List.length_pos_of_ne_nil h3)
        exact ⟨p, hp⟩

theorem children_mk (cs : List (Nat × TrieNode)) (v : Option TVal) :
    (TrieNode.mk cs v).children = cs := rfl

theorem value_mk (cs : List (Nat × TrieNode)) (v : Option TVal) :
    (TrieNode.mk cs v).value = v := rfl

/-- After removing a present key, that key observes no payload. -/
theorem removeGo_some_self_absent :
    ∀ (k : List Nat) (n : TrieNode), NodupKeys n → (nGetVal n k).isSome = true →
      ∀ m, removeGo n k = some m → nGetVal m k = none := by
  intro k
  induction k with
  | nil =>
    intro n _ hk m hrem
    simp only [removeGo] at hrem
    cases hempty : n.children.isEmpty with
    | true => rw [hempty] at hrem; simp at hrem
    | false =>
      rw [hempty] at hrem
      rw [nGetVal_nil] at hk
      rw [hk] at hrem
      simp at hrem
      rw [← hrem, nGetVal_nil, TrieNode.value]
  | cons c cs ih =>
    intro n hnd hk m hrem
    rw [nGetVal_cons] at hk
    cases hlook : lookupA n.children c with
    | none => rw [hlook] at hk; simp at hk
    | some ch =>
      rw [hlook] at hk
      simp only [removeGo, hlook] at hrem
      cases hrch : removeGo ch cs with
      | none =>
        rw [hrch] at hrem
        cases hcond : (n.value.isSome || decide (1 < n.children.length)) with
        | false => rw [hcond] at hrem; simp at hrem
        | true =>
          rw [hcond] at hrem
          simp at hrem
          rw [← hrem, nGetVal_cons]
          simp only [children_mk]
          rw [lookupA_eraseA_self c hnd.keys]
      | some ch2 =>
        rw [hrch] at hrem
        simp at hrem
        rw [← hrem, nGetVal_cons]
        simp only [children_mk]
        rw [lookupA_insertA_self]
        exact ih ch (hnd.childNd (mem_of_lookupA hlook)) hk ch2 hrch

/-- After removing a present key, every other key observes exactly what it
observed before. -/
theorem removeGo_some_other_keys :
    ∀ (k : List Nat) (n : TrieNode), NodupKeys n → (nGetVal n k).isSome = true →
      ∀ m, removeGo n k = some m → ∀ k2, k2 ≠ k → nGetVal m k2 = nGetVal n k2 := by
  intro k
  induction k with
  | nil =>
    intro n _ hk m hrem k2 hk2
    simp only [removeGo] at hrem
    cases hempty : n.children.isEmpty with
    | true => rw [hempty] at hrem; simp at hrem
    | false =>
      rw [hempty] at hrem
      rw [nGetVal_nil] at hk
      rw [hk] at hrem
      simp at hrem
      cases k2 with
      | nil => exact absurd rfl hk2
      | cons c2 cs2 =>
        rw [← hrem, nGetVal_cons, nGetVal_cons]
        simp only [TrieNode.children]
  | cons c cs ih =>
    intro n hnd hk m hrem k2 hk2
    rw [nGetVal_cons] at hk
    cases hlook : lookupA n.children c with
    | none => rw [hlook] at hk; simp at hk
    | some ch =>
      rw [hlook] at hk
      simp only [removeGo, hlook] at hrem
      cases hrch : removeGo ch cs with
      | none =>
        rw [hrch] at hrem
        cases hcond : (n.value.isSome || decide (1 < n.children.length)) with
        | false => rw [hcond] at hrem; simp at hrem
        | true =>
          rw [hcond] at hrem
          simp at hrem
          cases k2 with
          | nil => rw [← hrem, nGetVal_nil, nGetVal_nil, TrieNode.value]
          | cons c2 cs2 =>
            by_cases hc2 : c2 = c
            · subst hc2
              have hcs2 : cs2 ≠ cs := by
                intro h
                subst h
                exact hk2 rfl
              rw [← hrem, nGetVal_cons, nGetVal_cons]
              simp only [children_mk]
              rw [lookupA_eraseA_self c2 hnd.keys, hlook]
              exact (removeGo_none_only_key cs ch hk hrch cs2 hcs2).symm
            · rw [← hrem, nGetVal_cons, nGetVal_cons]
              simp only [children_mk]
              rw [lookupA_eraseA_ne _ _ _ hc2]
      | some ch2 =>
        rw [hrch] at hrem
        simp at hrem
        cases k2 with
        | nil => rw [← hrem, nGetVal_nil, nGetVal_nil, TrieNode.value]
        | cons c2 cs2 =>
          by_cases hc2 : c2 = c
          · subst hc2
            have hcs2 : cs2 ≠ cs := by
              intro h
              subst h
              exact hk2 rfl
            rw [← hrem, nGetVal_cons, nGetVal_cons]
            simp only [children_mk]
            rw [lookupA_insertA_self, hlook]
            exact ih ch (hnd.childNd (mem_of_lookupA hlook)) hk ch2 hrch cs2 hcs2
          · rw [← hrem, nGetVal_cons, nGetVal_cons]
            simp only [children_mk]
            rw [lookupA_insertA_ne _ _ _ _ hc2]

/-- Removing a present key preserves the leaf invariant: every pruning step
deletes exactly the nodes left with no value and no children. -/
theorem removeGo_preserves_wf :
    ∀ (k : List Nat) (n : TrieNode), WfLeaf n → (nGetVal n k).isSome = true →
      ∀ m, removeGo n k = some m → WfLeaf m := by
  intro k
  induction k with
  | nil =>
    intro n hwf hk m hrem
    simp only [removeGo] at hrem
    cases hempty : n.children.isEmpty with
    | true => rw [hempty] at hrem; simp at hrem
    | false =>
      rw [hempty] at hrem
      rw [nGetVal_nil] at hk
      rw [hk] at hrem
      simp at hrem
      rw [← hrem]
      refine WfLeaf.intro _ _ ?_ ?_
      · intro h
        rw [h] at hempty
        simp at hempty
      · intro c ch hmem
        exact hwf.childWf hmem
  | cons c cs ih =>
    intro n hwf hk m hrem
    rw [nGetVal_cons] at hk
    cases hlook : lookupA n.children c with
    | none => rw [hlook] at hk; simp at hk
    | some ch =>
      rw [hlook] at hk
      simp only [removeGo, hlook] at hrem
      cases hrch : removeGo ch cs with
      | none =>
        rw [hrch] at hrem
        cases hcond : (n.value.isSome || decide (1 < n.children.length)) with
        | false => rw [hcond] at hrem; simp at hrem
        | true =>
          rw [hcond] at hrem
          simp at hrem
          rw [← hrem]
          refine WfLeaf.intro _ _ ?_ ?_
          · intro h
            have h2 := eraseA_length hlook
            rw [h] at h2
            simp at h2
            rcases Bool.or_eq_true_iff.mp hcond with hval | hlen
            · exact hval
            · have := of_decide_eq_true hlen
              omega
          · intro c2 ch2 hmem
            exact hwf.childWf (mem_of_mem_eraseA hmem)
      | some ch2 =>
        rw [hrch] at hrem
        simp at hrem
        rw [← hrem]
        refine WfLeaf.intro _ _ ?_ ?_
        · intro h
          exact absurd h (insertA_ne_nil _ _ _)
        · intro c2 ch3 hmem
          rcases mem_insertA hmem with h | h
          · have : ch3 = ch2 := by
              injection h with h1 h2
            rw [this]
            exact ih ch (hwf.childWf (mem_of_lookupA hlook)) hk ch2 hrch
          · exact hwf.childWf h

/-- A nonempty well-formed trie holds at least one key (stepping down to any
leaf, which must be a value node). -/
theorem wfLeaf_exists_key_fuel :
    ∀ (fuel : Nat) (n : TrieNode), sizeOf n ≤ fuel → WfLeaf n →
      ∃ k, (nGetVal n k).isSome = true := by
  intro fuel
  induction fuel with
  | zero =>
    intro n hsz _
    cases n with
    | mk cs v =>
      simp [TrieNode.mk.sizeOf_spec] at hsz
  | succ f ih =>
    intro n hsz hwf
    cases n with
    | mk cs v =>
      cases hv : v with
      | some tv =>
        refine ⟨[], ?_⟩
        rw [nGetVal_nil]
        simp [TrieNode.value, hv]
      | none =>
        cases hcs : cs with
        | nil =>
          have := hwf.leafCase (by simp [TrieNode.children, hcs])
          simp [TrieNode.value, hv] at this
        | cons p rest =>
          obtain ⟨c, ch⟩ := p
          have hwfch : WfLeaf ch := hwf.childWf (c := c) (by simp [TrieNode.children, hcs])
          have hszch : sizeOf ch ≤ f := by
            subst hcs
            simp [TrieNode.mk.sizeOf_spec, List.cons.sizeOf_spec, Prod.mk.sizeOf_spec] at hsz
            omega
          obtain ⟨k, hk⟩ := ih ch hszch hwfch
          refine ⟨c :: k, ?_⟩
          rw [nGetVal_cons]
          simp only [TrieNode.children, hcs, lookupA, if_pos rfl]
          exact hk

theorem wfLeaf_exists_key (n : TrieNode) (hwf : WfLeaf n) :
    ∃ k, (nGetVal n k).isSome = true :=
  wfLeaf_exists_key_fuel (sizeOf n) n (Nat.le_refl _) hwf

/-- C4: removing a present key `k` from trie `t` yields `some t2` (no
undefined behaviour) such that: `k` observes nothing in `t2`; every other key
observes in `t2` exactly what it observed in `t`; the leaf invariant is
preserved (every node left with no value and no children has been pruned,
cascading up to the boundary ancestor); and if `k` was the only key of a
well-formed `t`, the pruning reaches the root and `t2` is the empty trie. -/
theorem trie_remove_present_key (t : Trie) (k : List Nat)
    (hnd : Trie.NodupT t) (hk : Trie.hasKey t k = true) :
    ∃ t2, Trie.Remove t k = some t2 ∧
      (∀ tag, Trie.Get t2 tag k = none) ∧
      (∀ k2, k2 ≠ k → ∀ tag, Trie.Get t2 tag k2 = Trie.Get t tag k2) ∧
      (Trie.Wf t → Trie.Wf t2) ∧
      (Trie.Wf t → (∀ k2, k2 ≠ k → Trie.hasKey t k2 = false) → t2 = none) := by
  match t with
  | none => simp [Trie.hasKey, Trie.GetVal] at hk
  | some root =>
    have hroot : (nGetVal root k).isSome = true := by
      rw [Trie.hasKey, getVal_some] at hk
      exact hk
    have hndr : NodupKeys root := hnd
    have hpath : hasPathT root k = true := hasPathT_of_getVal k root hroot
    cases hrem : removeGo root k with
    | none =>
      refine ⟨none, ?_, ?_, ?_, ?_, ?_⟩
      · simp [Trie.Remove, hpath, hrem]
      · intro tag; rfl
      · intro k2 hk2 tag
        have h2 := removeGo_none_only_key k root hroot hrem k2 hk2
        rw [get_eq_getVal, get_eq_getVal, getVal_some, h2]
        rfl
      · intro _; trivial
      · intro _ _; rfl
    | some m =>
      have hne := removeGo_value_or_children k root hroot m hrem
      have hcondF : (m.children.isEmpty && !m.value.isSome) = false := by
        rcases hne with h | h
        · simp [h]
        · simp [h]
      refine ⟨some m, ?_, ?_, ?_, ?_, ?_⟩
      · cases hni : m.children.isEmpty with
        | false => simp [Trie.Remove, hpath, hrem, hni]
        | true =>
          have hv : m.value.isSome = true := by
            rcases hne with h | h
            · rw [hni] at h; cases h
            · exact h
          simp [Trie.Remove, hpath, hrem, hni, hv]
      · intro tag
        rw [get_eq_getVal, getVal_some,
          removeGo_some_self_absent k root hndr hroot m hrem]
      · intro k2 hk2 tag
        rw [get_eq_getVal, get_eq_getVal, getVal_some, getVal_some,
          removeGo_some_other_keys k root hndr hroot m hrem k2 hk2]
      · intro hwf
        exact removeGo_preserves_wf k root hwf hroot m hrem
      · intro hwf honly
        exfalso
        have hwfm : WfLeaf m := removeGo_preserves_wf k root hwf hroot m hrem
        obtain ⟨k3, hk3⟩ := wfLeaf_exists_key m hwfm
        by_cases h3 : k3 = k
        · rw [h3] at hk3
          rw [removeGo_some_self_absent k root hndr hroot m hrem] at hk3
          simp at hk3
        · rw [removeGo_some_other_keys k root hndr hroot m hrem k3 h3] at hk3
          have h4 := honly k3 h3
          rw [Trie.hasKey, getVal_some] at h4
          simp [hk3] at h4

/-- The single-binding trie `{"a" ↦ (0, 5)}` has duplicate-free child maps. -/
theorem nodupT_single_a :
    Trie.NodupT (Trie.Put (none : Trie) [97] ⟨0, 5⟩) := by
  show NodupKeys (TrieNode.mk [(97, TrieNode.mk [] (some ⟨0, 5⟩))] none)
  refine NodupKeys.intro _ _ (by simp [keysA]) ?_
  intro c ch h
  simp at h
  obtain ⟨h1, h2⟩ := h
  subst h2
  refine NodupKeys.intro _ _ (by simp [keysA]) ?_
  intro c2 ch2 h2
  simp at h2

/-- Witness for C4 at the concrete trie `{"a" ↦ (0, 5)}` and key `"a"`. -/
theorem trie_remove_present_key_witness :
    ∃ t2, Trie.Remove (Trie.Put (none : Trie) [97] ⟨0, 5⟩) [97] = some t2 ∧
      (∀ tag, Trie.Get t2 tag [97] = none) ∧
      (∀ k2, k2 ≠ [97] → ∀ tag,
        Trie.Get t2 tag k2 = Trie.Get (Trie.Put (none : Trie) [97] ⟨0, 5⟩) tag k2) ∧
      (Trie.Wf (Trie.Put (none : Trie) [97] ⟨0, 5⟩) → Trie.Wf t2) ∧
      (Trie.Wf (Trie.Put (none : Trie) [97] ⟨0, 5⟩) →
        (∀ k2, k2 ≠ [97] →
          Trie.hasKey (Trie.Put (none : Trie) [97] ⟨0, 5⟩) k2 = false) →
        t2 = none) :=
  trie_remove_present_key (Trie.Put (none : Trie) [97] ⟨0, 5⟩) [97]
    nodupT_single_a rfl

/-! ### Store-passing model of `Trie::Put` (C3)

To state that `put` leaves the old version observable and unchanged one must
model the heap: each `std::shared_ptr<const TrieNode>` cell becomes an address
into an append-only store, `make_shared` / `Clone()` become allocations at the
end of the store, and the in-place writes `Trie::Put` performs on its freshly
cloned nodes (`p->children_[c] = new_node`, `node->children_ = ...`) become
explicit updates at those addresses.  (`ret = make_shared<Trie>()` allocates a
handle, not a node, and is not part of the node store.)  The proof shows the
writes only ever hit addresses allocated during the call, so every observation
through the old root is untouched. -/

/-- A heap trie node: a child map from byte to node address. -/
structure HNode where
  children : List (Nat × Nat)
  value : Option TVal
deriving DecidableEq, Repr

/-- The node heap: address `a` holds `s[a]`; allocation appends. -/
abbrev Store := List HNode

/-- Dereference an address (`none` models a dangling pointer). -/
def Store.read (s : Store) (a : Nat) : Option HNode := s[a]?

/-- Model of `make_shared` / `Clone()`: append the node, return its address. -/
def Store.alloc (s : Store) (nd : HNode) : Store × Nat := (s ++ [nd], s.length)

/-- Model of `node->children_[c] = ch` — in-place update of one child edge. -/
def Store.setChild (s : Store) (a c ch : Nat) : Store :=
  match s.read a with
  | some nd => s.set a (HNode.mk (insertA nd.children c ch) nd.value)
  | none => s

/-- Model of `node->children_ = cs` — in-place replacement of the whole child map. -/
def Store.setChildren (s : Store) (a : Nat) (cs : List (Nat × Nat)) : Store :=
  match s.read a with
  | some nd => s.set a (HNode.mk cs nd.value)
  | none => s

/-- The walk of `Trie::Get` over the heap. -/
def hWalk (s : Store) : Nat → List Nat → Option Nat
  | a, [] => some a
  | a, c :: cs =>
    match s.read a with
    | none => none
    | some nd =>
      match lookupA nd.children c with
      | none => none
      | some ch => hWalk s ch cs

/-- Model of `Trie::Get<T>` over the heap (trie.cpp lines 7-38). -/
def hGet (s : Store) (root : Option Nat) (tag : Nat) (key : List Nat) : Option Nat :=
  match root with
  | none => none
  | some r =>
    match hWalk s r key with
    | none => none
    | some a =>
      match s.read a with
      | none => none
      | some nd =>
        match nd.value with
        | none => none
        | some v => if v.tag = tag then some v.data else none

/-- The reverse-iteration chain construction of `Trie::Put` for a null root
(trie.cpp lines 54-62), processing the last byte first. -/
def allocChain (acc : Store × Nat) : List Nat → Store × Nat
  | [] => acc
  | c :: cs =>
    let res := allocChain acc cs
    let a2 := res.1.alloc (HNode.mk [(c, res.2)] none)
    (a2.1, a2.2)

/-- The copy-on-write loop of `Trie::Put` (trie.cpp lines 76-93) over the
heap.  `pA` is the address of `p` (the already-cloned current node), `nodeA`
the address of the new value node; each iteration clones (or creates) the
child on the path and redirects `p`'s edge to the clone; the final iteration
additionally moves the terminal clone's children into the value node when
they are nonempty (lines 88-91) and overwrites `pre_node`'s edge with the
value node (line 93). -/
def hPutLoop (s : Store) (pA nodeA : Nat) : Nat → List Nat → Store
  | c, cs =>
    let cur := (s.read pA).getD (HNode.mk [] none)
    let st :=
      match lookupA cur.children c with
      | some chA =>
        let a2 := s.alloc ((s.read chA).getD (HNode.mk [] none))
        (a2.1.setChild pA c a2.2, a2.2)
      | none =>
        let a2 := s.alloc (HNode.mk [] none)
        (a2.1.setChild pA c a2.2, a2.2)
    match cs with
    | [] =>
      let pNode := (st.1.read st.2).getD (HNode.mk [] none)
      let s3 := if pNode.children.isEmpty then st.1
        else st.1.setChildren nodeA pNode.children
      s3.setChild pA c nodeA
    | c2 :: cs2 => hPutLoop st.1 st.2 nodeA c2 cs2

/-- Model of `Trie::Put<T>` over the heap (trie.cpp lines 41-95): allocate the value
node, then build the chain (null root), adopt the old root's children (empty
key), or clone the root and run the copy-on-write loop.  Returns the new
store and the new root address. -/
def hPut (s : Store) (root : Option Nat) (key : List Nat) (v : TVal) :
    Store × Option Nat :=
  let a1 := s.alloc (HNode.mk [] (some v))
  match root with
  | none =>
    let res := allocChain (a1.1, a1.2) key
    (res.1, some res.2)
  | some r =>
    match key with
    | [] =>
      let rootNode := (a1.1.read r).getD (HNode.mk [] none)
      (a1.1.setChildren a1.2 rootNode.children, some a1.2)
    | c :: cs =>
      let a2 := a1.1.alloc ((a1.1.read r).getD (HNode.mk [] none))
      (hPutLoop a2.1 a2.2 a1.2 c cs, some a2.2)

/-- Every child address stored anywhere in the store is in bounds. -/
def closedB (s : Store) : Bool :=
  s.all (fun nd => nd.children.all (fun p => decide (p.2 < s.length)))

/-- Propositional form of `closedB`. -/
def ClosedStore (s : Store) : Prop :=
  ∀ a nd, s.read a = some nd → ∀ p, p ∈ nd.children → p.2 < s.length

theorem closed_of_closedB {s : Store} (h : closedB s = true) : ClosedStore s := by
  intro a nd hread p hp
  rw [closedB, List.all_eq_true] at h
  have hmem : nd ∈ s := by
    obtain ⟨hlt, hget⟩ := List.getElem?_eq_some_iff.mp hread
    exact hget ▸ List.getElem_mem hlt
  have h2 := h nd hmem
  rw [List.all_eq_true] at h2
  exact of_decide_eq_true (h2 p hp)

/-- Store `s2` preserves `s` below `n`: reads of the first `n` addresses agree and
the store has only grown. -/
def presBelow (n : Nat) (s s2 : Store) : Prop :=
  n ≤ s2.length ∧ ∀ a, a < n → s2.read a = s.read a

theorem presBelow_refl {n : Nat} {s : Store} (h : n ≤ s.length) : presBelow n s s :=
  ⟨h, fun _ _ => rfl⟩

theorem presBelow_trans {n : Nat} {s1 s2 s3 : Store}
    (h12 : presBelow n s1 s2) (h23 : presBelow n s2 s3) : presBelow n s1 s3 :=
  ⟨h23.1, fun a ha => (h23.2 a ha).trans (h12.2 a ha)⟩

theorem presBelow_alloc {n : Nat} {s : Store} (nd : HNode) (h : n ≤ s.length) :
    presBelow n s (s.alloc nd).1 := by
  refine ⟨by simp [Store.alloc]; omega, ?_⟩
  intro a ha
  exact List.getElem?_append_left (by omega)

theorem presBelow_set {n : Nat} {s : Store} {b : Nat} (nd : HNode)
    (hb : n ≤ b) (hlen : n ≤ s.length) : presBelow n s (s.set b nd) := by
  refine ⟨by simpa using hlen, ?_⟩
  intro a ha
  exact List.getElem?_set_ne (by omega)

theorem presBelow_setChild {n : Nat} {s : Store} {b c ch : Nat}
    (hb : n ≤ b) (hlen : n ≤ s.length) : presBelow n s (s.setChild b c ch) := by
  rw [Store.setChild]
  cases s.read b with
  | none => exact presBelow_refl hlen
  | some nd => exact presBelow_set _ hb hlen

theorem presBelow_setChildren {n : Nat} {s : Store} {b : Nat} {cs : List (Nat × Nat)}
    (hb : n ≤ b) (hlen : n ≤ s.length) : presBelow n s (s.setChildren b cs) := by
  rw [Store.setChildren]
  cases s.read b with
  | none => exact presBelow_refl hlen
  | some nd => exact presBelow_set _ hb hlen

theorem length_setChild (s : Store) (b c ch : Nat) :
    (s.setChild b c ch).length = s.length := by
  rw [Store.setChild]
  cases s.read b with
  | none => rfl
  | some nd => simp

theorem length_setChildren (s : Store) (b : Nat) (cs : List (Nat × Nat)) :
    (s.setChildren b cs).length = s.length := by
  rw [Store.setChildren]
  cases s.read b with
  | none => rfl
  | some nd => simp

theorem presBelow_allocChain {n : Nat} :
    ∀ (key : List Nat) (acc : Store × Nat), n ≤ acc.1.length →
      presBelow n acc.1 (allocChain acc key).1 := by
  intro key
  induction key with
  | nil => intro acc h; exact presBelow_refl h
  | cons c cs ih =>
    intro acc h
    have h1 := ih acc h
    exact presBelow_trans h1 (presBelow_alloc _ h1.1)

theorem presBelow_hPutLoop {n : Nat} :
    ∀ (cs : List Nat) (c : Nat) (s : Store) (pA nodeA : Nat),
      n ≤ s.length → n ≤ pA → n ≤ nodeA →
      presBelow n s (hPutLoop s pA nodeA c cs) := by
  intro cs
  induction cs with
  | nil =>
    intro c s pA nodeA hlen hp hnode
    rw [hPutLoop]
    cases hlook : lookupA ((s.read pA).getD (HNode.mk [] none)).children c with
    | some chA =>
      simp only [hlook]
      have h1 : presBelow n s ((s.alloc ((s.read chA).getD (HNode.mk [] none))).1.setChild pA c (s.alloc ((s.read chA).getD (HNode.mk [] none))).2) :=
        presBelow_trans (presBelow_alloc _ hlen)
          (presBelow_setChild hp (by simp [Store.alloc]; omega))
      have hlen1 : n ≤ ((s.alloc ((s.read chA).getD (HNode.mk [] none))).1.setChild pA c (s.alloc ((s.read chA).getD (HNode.mk [] none))).2).length := h1.1
      refine presBelow_trans h1 ?_
      refine presBelow_trans ?_ (presBelow_setChild hp ?_)
      · split
        · exact presBelow_refl hlen1
        · exact presBelow_setChildren hnode hlen1
      · split
        · exact hlen1
        · rw [length_setChildren]; exact hlen1
    | none =>
      simp only [hlook]
      have h1 : presBelow n s ((s.alloc (HNode.mk [] none)).1.setChild pA c (s.alloc (HNode.mk [] none)).2) :=
        presBelow_trans (presBelow_alloc _ hlen)
          (presBelow_setChild hp (by simp [Store.alloc]; omega))
      have hlen1 : n ≤ ((s.alloc (HNode.mk [] none)).1.setChild pA c (s.alloc (HNode.mk [] none)).2).length := h1.1
      refine presBelow_trans h1 ?_
      refine presBelow_trans ?_ (presBelow_setChild hp ?_)
      · split
        · exact presBelow_refl hlen1
        · exact presBelow_setChildren hnode hlen1
      · split
        · exact hlen1
        · rw [length_setChildren]; exact hlen1
  | cons c2 cs2 ih =>
    intro c s pA nodeA hlen hp hnode
    rw [hPutLoop]
    cases hlook : lookupA ((s.read pA).getD (HNode.mk [] none)).children c with
    | some chA =>
      simp only [hlook]
      have h1 : presBelow n s ((s.alloc ((s.read chA).getD (HNode.mk [] none))).1.setChild pA c (s.alloc ((s.read chA).getD (HNode.mk [] none))).2) :=
        presBelow_trans (presBelow_alloc _ hlen)
          (presBelow_setChild hp (by simp [Store.alloc]; omega))
      refine presBelow_trans h1 (ih c2 _ _ nodeA h1.1 ?_ hnode)
      simpa [Store.alloc] using hlen
    | none =>
      simp only [hlook]
      have h1 : presBelow n s ((s.alloc (HNode.mk [] none)).1.setChild pA c (s.alloc (HNode.mk [] none)).2) :=
        presBelow_trans (presBelow_alloc _ hlen)
          (presBelow_setChild hp (by simp [Store.alloc]; omega))
      refine presBelow_trans h1 (ih c2 _ _ nodeA h1.1 ?_ hnode)
      simpa [Store.alloc] using hlen

/-- Theorem: `Trie::Put` writes only to addresses it allocated itself: every
pre-existing address reads back unchanged. -/
theorem presBelow_hPut (s : Store) (root : Option Nat) (key : List Nat) (v : TVal) :
    presBelow s.length s (hPut s root key v).1 := by
  cases root with
  | none =>
    exact presBelow_trans (presBelow_alloc (HNode.mk [] (some v)) (Nat.le_refl _))
      (presBelow_allocChain key (s.alloc (HNode.mk [] (some v))) (by simp [Store.alloc]))
  | some r =>
    cases key with
    | nil =>
      exact presBelow_trans (presBelow_alloc (HNode.mk [] (some v)) (Nat.le_refl _))
        (presBelow_setChildren (by simp [Store.alloc]) (by simp [Store.alloc]))
    | cons c cs =>
      refine presBelow_trans (presBelow_alloc (HNode.mk [] (some v)) (Nat.le_refl _)) ?_
      refine presBelow_trans
        (presBelow_alloc
          (((s.alloc (HNode.mk [] (some v))).1.read r).getD (HNode.mk [] none))
          (by simp [Store.alloc])) ?_
      refine presBelow_hPutLoop cs c _ _ _ ?_ ?_ ?_ <;> simp [Store.alloc]

/-- In a closed store, the walk stays in bounds. -/
theorem hWalk_lt {s : Store} (hc : ClosedStore s) :
    ∀ (key : List Nat) (r : Nat), r < s.length →
      ∀ a, hWalk s r key = some a → a < s.length := by
  intro key
  induction key with
  | nil =>
    intro r hr a ha
    rw [hWalk] at ha
    injection ha with h
    omega
  | cons c cs ih =>
    intro r hr a ha
    cases hread : s.read r with
    | none => simp [hWalk, hread] at ha
    | some nd =>
      cases hlook : lookupA nd.children c with
      | none => simp [hWalk, hread, hlook] at ha
      | some ch =>
        simp only [hWalk, hread, hlook] at ha
        exact ih ch (hc r nd hread _ (mem_of_lookupA hlook)) a ha

/-- Walks from an old root are unaffected by a store extension that
preserves all old addresses. -/
theorem hWalk_pres {s s2 : Store} (hc : ClosedStore s)
    (hpres : ∀ a, a < s.length → s2.read a = s.read a) :
    ∀ (key : List Nat) (r : Nat), r < s.length → hWalk s2 r key = hWalk s r key := by
  intro key
  induction key with
  | nil => intro r _; rfl
  | cons c cs ih =>
    intro r hr
    cases hread : s.read r with
    | none => simp [hWalk, hpres r hr, hread]
    | some nd =>
      cases hlook : lookupA nd.children c with
      | none => simp [hWalk, hpres r hr, hread, hlook]
      | some ch =>
        simp only [hWalk, hpres r hr, hread, hlook]
        exact ih ch (hc r nd hread _ (mem_of_lookupA hlook))

/-- C3: `t.put(k, v)` leaves every observation on the old version `t`
unchanged — for every key and every type tag, `get` through the old root
reads exactly what it read before the call (the copy-on-write loop allocates
fresh nodes and writes only to them). -/
theorem trie_put_immutable (s : Store) (root : Option Nat) (key : List Nat) (v : TVal)
    (hclosed : closedB s = true)
    (hroot : ∀ r, root = some r → r < s.length) :
    ∀ tag k2, hGet (hPut s root key v).1 root tag k2 = hGet s root tag k2 := by
  intro tag k2
  cases root with
  | none => rfl
  | some r =>
    have hc := closed_of_closedB hclosed
    have hr := hroot r rfl
    have hpres := (presBelow_hPut s (some r) key v).2
    cases hw : hWalk s r k2 with
    | none => simp [hGet, hWalk_pres hc hpres k2 r hr, hw]
    | some a =>
      have ha : a < s.length := hWalk_lt hc k2 r hr a hw
      simp only [hGet, hWalk_pres hc hpres k2 r hr, hw, hpres a ha]

/-- Witness for C3: the published heap version `{"a" ↦ (0, 5)}` (value node
at address 0, root at address 1) observes the same results after
`put("b", (0, 7))` extends the heap. -/
theorem trie_put_immutable_witness :
    closedB [HNode.mk [] (some ⟨0, 5⟩), HNode.mk [(97, 0)] none] = true ∧
    (∀ tag k2,
      hGet (hPut [HNode.mk [] (some ⟨0, 5⟩), HNode.mk [(97, 0)] none]
          (some 1) [98] ⟨0, 7⟩).1 (some 1) tag k2 =
        hGet [HNode.mk [] (some ⟨0, 5⟩), HNode.mk [(97, 0)] none] (some 1) tag k2) :=
  ⟨by decide,
    trie_put_immutable _ (some 1) [98] ⟨0, 7⟩ (by decide)
      (fun r h => by injection h with h2; subst h2; decide)⟩

/-! ### LRU-K replacer (`src/buffer/lru_k_replacer.cpp`)

The state keeps the two lists, the count map, the non-evictable set and
`curr_size_` exactly as in the source; `std::unordered_map` /
`std::unordered_set` become functions, `std::list` becomes `List Nat`.  The
iterator maps (`inf_history_iter_map_` / `history_iter_map_`) are an O(1)
erase optimization: semantically `list.erase(iter_map[f])` is `erase the
occurrence of f`, which is `List.erase` on duplicate-free lists.  Every
public method locks `latch_` for its whole body, so a call is one atomic
transition.  `BUSTUB_ASSERT` aborts on an out-of-range frame id; dereferencing
a missing iterator-map entry (possible only when a frame's count reaches `k_`
while the frame sits in the other list, e.g. with `k = 1`) is undefined
behaviour — both are excluded by the side conditions of the reachability
relation below. -/

/-- The replacer state (lru_k_replacer.cpp / lru_k_replacer.h fields). -/
structure LRUKReplacer where
  infList : List Nat
  histList : List Nat
  countMap : Nat → Option Nat
  nonEvict : Nat → Bool
  currSize : Nat
  replacerSize : Nat
  k : Nat

/-- Model of `LRUKReplacer(num_frames, k)` (line 18): empty structures. -/
def LRUKReplacer.init (numFrames kv : Nat) : LRUKReplacer :=
  ⟨[], [], fun _ => none, fun _ => false, 0, numFrames, kv⟩

/-- Model of `Evict` (lines 20-48): nothing when `curr_size_ == 0`; otherwise the
first evictable frame of `inf_history_list_`, then of `history_list_`; on
success the frame leaves the count map and its list and `curr_size_` drops. -/
def LRUKReplacer.Evict (s : LRUKReplacer) : Option Nat × LRUKReplacer :=
  if s.currSize = 0 then (none, s)
  else
    match s.infList.find? (fun f => !s.nonEvict f) with
    | some f =>
      (some f,
        { s with
          countMap := fun g => if g = f then none else s.countMap g,
          infList := s.infList.erase f,
          currSize := s.currSize - 1 })
    | none =>
      match s.histList.find? (fun f => !s.nonEvict f) with
      | some f =>
        (some f,
          { s with
            countMap := fun g => if g = f then none else s.countMap g,
            histList := s.histList.erase f,
            currSize := s.currSize - 1 })
      | none => (none, s)

/-- Model of `RecordAccess` (lines 50-79): first access appends to the FIFO list with
count 1; an access with count `≥ k` touches the LRU list (move to back) and
increments; an access with count `< k` increments and, upon reaching `k`,
promotes the frame from the FIFO list to the back of the LRU list. -/
def LRUKReplacer.RecordAccess (s : LRUKReplacer) (f : Nat) : LRUKReplacer :=
  match s.countMap f with
  | none =>
    { s with
      infList := s.infList ++ [f],
      countMap := fun g => if g = f then some 1 else s.countMap g,
      currSize := s.currSize + 1 }
  | some c =>
    if s.k ≤ c then
      { s with
        histList := s.histList.erase f ++ [f],
        countMap := fun g => if g = f then some (c + 1) else s.countMap g }
    else if s.k ≤ c + 1 then
      { s with
        countMap := fun g => if g = f then some (c + 1) else s.countMap g,
        infList := s.infList.erase f,
        histList := s.histList ++ [f] }
    else
      { s with countMap := fun g => if g = f then some (c + 1) else s.countMap g }

/-- Model of `SetEvictable` (lines 81-95): no-op on untracked frames; two sequential
conditional updates of the non-evictable set and `curr_size_`. -/
def LRUKReplacer.SetEvictable (s : LRUKReplacer) (f : Nat) (e : Bool) : LRUKReplacer :=
  if (s.countMap f).isSome = false then s
  else
    let s1 :=
      if s.nonEvict f = false && e = false then
        { s with
          nonEvict := fun g => if g = f then true else s.nonEvict g,
          currSize := s.currSize - 1 }
      else s
    if s1.nonEvict f = true && e = true then
      { s1 with
        nonEvict := fun g => if g = f then false else s1.nonEvict g,
        currSize := s1.currSize + 1 }
    else s1

/-- Model of `Remove` (lines 97-115): no-op on untracked or non-evictable frames;
otherwise erase from the list matching the count and from the count map. -/
def LRUKReplacer.Remove (s : LRUKReplacer) (f : Nat) : LRUKReplacer :=
  match s.countMap f with
  | none => s
  | some c =>
    if s.nonEvict f then s
    else if s.k ≤ c then
      { s with
        histList := s.histList.erase f,
        countMap := fun g => if g = f then none else s.countMap g,
        currSize := s.currSize - 1 }
    else
      { s with
        infList := s.infList.erase f,
        countMap := fun g => if g = f then none else s.countMap g,
        currSize := s.currSize - 1 }

/-- The iterator maps of the source are in sync for frame `f`: its list
membership matches its count.  A `RecordAccess`/`Remove` on a frame violating
this dereferences a default-constructed iterator (undefined behaviour). -/
def LRUKReplacer.syncOk (s : LRUKReplacer) (f : Nat) : Bool :=
  match s.countMap f with
  | none => true
  | some c =>
    (!decide (s.k ≤ c) || decide (f ∈ s.histList)) &&
      (!decide (c < s.k) || decide (f ∈ s.infList))

/-! Ghost instrumentation: a clock incremented at each `RecordAccess`, the
time of the first recorded access (reset when a frame re-enters after
eviction/removal) and of the most recent recorded access.  The ghost fields
never influence the replacer state. -/

/-- Replacer state with ghost access times. -/
structure GState where
  st : LRUKReplacer
  clock : Nat
  firstT : Nat → Nat
  lastT : Nat → Nat

def GState.init (numFrames kv : Nat) : GState :=
  ⟨LRUKReplacer.init numFrames kv, 0, fun _ => 0, fun _ => 0⟩

def GState.recordAccess (g : GState) (f : Nat) : GState :=
  { st := g.st.RecordAccess f,
    clock := g.clock + 1,
    firstT :=
      if (g.st.countMap f).isSome then g.firstT
      else fun x => if x = f then g.clock else g.firstT x,
    lastT := fun x => if x = f then g.clock else g.lastT x }

def GState.setEvictable (g : GState) (f : Nat) (e : Bool) : GState :=
  { g with st := g.st.SetEvictable f e }

def GState.remove (g : GState) (f : Nat) : GState :=
  { g with st := g.st.Remove f }

def GState.evict (g : GState) : GState :=
  { g with st := (g.st.Evict).2 }

/-- Replacer states reachable through the public interface.  Side
conditions: frame ids are in range (`BUSTUB_ASSERT` aborts otherwise) and
`RecordAccess`/`Remove` are not called in the iterator-desync situation that
is undefined behaviour in the source (see `LRUKReplacer.syncOk`). -/
inductive GReach : GState → Prop where
  | init (numFrames kv : Nat) : GReach (GState.init numFrames kv)
  | step_record (g : GState) (f : Nat) (h : GReach g)
      (hf : f < g.st.replacerSize) (hs : g.st.syncOk f = true) :
      GReach (g.recordAccess f)
  | step_set (g : GState) (f : Nat) (e : Bool) (h : GReach g)
      (hf : f < g.st.replacerSize) : GReach (g.setEvictable f e)
  | step_remove (g : GState) (f : Nat) (h : GReach g)
      (hf : f < g.st.replacerSize) (hs : g.st.syncOk f = true) :
      GReach (g.remove f)
  | step_evict (g : GState) (h : GReach g) : GReach g.evict

/-! Small list toolkit for the replacer proofs. -/

theorem nodup_append_singleton {l : List Nat} {f : Nat} (hl : l.Nodup) (hf : f ∉ l) :
    (l ++ [f]).Nodup := by
  rw [List.nodup_append]
  refine ⟨hl, List.nodup_singleton f, ?_⟩
  intro a ha hb
  simp at hb
  subst hb
  exact hf ha

theorem pairwise_append_singleton {l : List Nat} {R : Nat → Nat → Prop} {f : Nat}
    (hl : l.Pairwise R) (hf : ∀ a ∈ l, R a f) : (l ++ [f]).Pairwise R := by
  rw [List.pairwise_append]
  exact ⟨hl, List.pairwise_singleton _ _, by simpa using hf⟩

theorem pairwise_lt_transfer {l : List Nat} {t t2 : Nat → Nat}
    (h : ∀ x ∈ l, t2 x = t x) (hp : l.Pairwise (fun a b => t a < t b)) :
    l.Pairwise (fun a b => t2 a < t2 b) :=
  hp.imp_of_mem (fun ha hb hr => by rw [h _ ha, h _ hb]; exact hr)

theorem countP_erase_mem (l : List Nat) (p : Nat → Bool) (f : Nat) (hmem : f ∈ l) :
    l.countP p = (l.erase f).countP p + (if p f then 1 else 0) := by
  rw [(List.perm_cons_erase hmem).countP_eq p, List.countP_cons]

theorem countP_ptwise (l : List Nat) (p q : Nat → Bool) (h : ∀ x ∈ l, p x = q x) :
    l.countP p = l.countP q := by
  induction l with
  | nil => rfl
  | cons a rest ih =>
    rw [List.countP_cons, List.countP_cons, h a (List.mem_cons_self a rest),
      ih (fun x hx => h x (List.mem_cons_of_mem a hx))]

/-- The replacer representation invariant, with the ghost ordering facts:
the lists are duplicate-free and disjoint; tracked = member of one list; the
non-evictable set only holds tracked frames; `curr_size_` counts evictable
tracked frames; the FIFO list is ordered by first access and the LRU list by
most recent access, all times below the clock. -/
structure GInv (g : GState) : Prop where
  nodupInf : g.st.infList.Nodup
  nodupHist : g.st.histList.Nodup
  disjoint : ∀ f, f ∈ g.st.infList → f ∉ g.st.histList
  trackedIff : ∀ f, (g.st.countMap f).isSome = true ↔
    (f ∈ g.st.infList ∨ f ∈ g.st.histList)
  neTracked : ∀ f, g.st.nonEvict f = true → (g.st.countMap f).isSome = true
  sizeEq : g.st.currSize =
    ((g.st.infList ++ g.st.histList).countP (fun x => !g.st.nonEvict x))
  sortedInf : g.st.infList.Pairwise (fun a b => g.firstT a < g.firstT b)
  sortedHist : g.st.histList.Pairwise (fun a b => g.lastT a < g.lastT b)
  boundInf : ∀ f, f ∈ g.st.infList → g.firstT f < g.clock
  boundHist : ∀ f, f ∈ g.st.histList → g.lastT f < g.clock

theorem ginv_init (numFrames kv : Nat) : GInv (GState.init numFrames kv) := by
  refine ⟨?_, ?_, ?_, ?_, ?_, ?_, ?_, ?_, ?_, ?_⟩ <;>
    simp [GState.init, LRUKReplacer.init]

theorem ginv_record (g : GState) (f : Nat) (hinv : GInv g) (hs : g.st.syncOk f = true) :
    GInv (g.recordAccess f) := by
  obtain ⟨hnI, hnH, hdis, htr, hne, hsz, hsoI, hsoH, hbI, hbH⟩ := hinv
  cases hcm : g.st.countMap f with
  | none =>
    have hfI : f ∉ g.st.infList := by
      intro h
      have h2 := (htr f).mpr (Or.inl h)
      rw [hcm] at h2
      simp at h2
    have hfH : f ∉ g.st.histList := by
      intro h
      have h2 := (htr f).mpr (Or.inr h)
      rw [hcm] at h2
      simp at h2
    have hnef : g.st.nonEvict f = false := by
      cases h : g.st.nonEvict f with
      | false => rfl
      | true =>
        have h2 := hne f h
        rw [hcm] at h2
        simp at h2
    have heq : g.recordAccess f = ⟨
        { g.st with
          infList := g.st.infList ++ [f],
          countMap := fun x => if x = f then some 1 else g.st.countMap x,
          currSize := g.st.currSize + 1 },
        g.clock + 1,
        fun x => if x = f then g.clock else g.firstT x,
        fun x => if x = f then g.clock else g.lastT x⟩ := by
      simp [GState.recordAccess, LRUKReplacer.RecordAccess, hcm]
    rw [heq]
    refine ⟨?_, ?_, ?_, ?_, ?_, ?_, ?_, ?_, ?_, ?_⟩
    · exact nodup_append_singleton hnI hfI
    · exact hnH
    · intro x hx
      rcases List.mem_append.mp hx with h | h
      · exact hdis x h
      · simp at h
        subst h
        exact hfH
    · intro x
      show (if x = f then some 1 else g.st.countMap x).isSome = true ↔
        (x ∈ g.st.infList ++ [f] ∨ x ∈ g.st.histList)
      by_cases hx : x = f
      · subst hx
        simp [List.mem_append]
      · rw [if_neg hx, htr x]
        simp [List.mem_append, hx]
    · intro x hxne
      show (if x = f then some 1 else g.st.countMap x).isSome = true
      by_cases hx : x = f
      · simp [hx]
      · rw [if_neg hx]
        exact hne x hxne
    · show g.st.currSize + 1 =
        ((g.st.infList ++ [f] ++ g.st.histList).countP (fun x => !g.st.nonEvict x))
      rw [List.countP_append, List.countP_append]
      rw [hsz, List.countP_append]
      simp [List.countP_cons, hnef]
      omega
    · refine pairwise_append_singleton ?_ ?_
      · refine pairwise_lt_transfer (fun x hx => ?_) hsoI
        show (if x = f then g.clock else g.firstT x) = g.firstT x
        rw [if_neg]
        intro h
        subst h
        exact hfI hx
      · intro a ha
        show (if a = f then g.clock else g.firstT a) < (if f = f then g.clock else g.firstT f)
        rw [if_neg (by intro h; subst h; exact hfI ha), if_pos rfl]
        exact hbI a ha
    · refine pairwise_lt_transfer (fun x hx => ?_) hsoH
      show (if x = f then g.clock else g.lastT x) = g.lastT x
      rw [if_neg]
      intro h
      subst h
      exact hfH hx
    · intro x hx
      show (if x = f then g.clock else g.firstT x) < g.clock + 1
      rcases List.mem_append.mp hx with h | h
      · rw [if_neg (by intro h2; subst h2; exact hfI h)]
        exact Nat.lt_trans (hbI x h) (Nat.lt_succ_self _)
      · simp at h
        subst h
        simp
    · intro x hx
      show (if x = f then g.clock else g.lastT x) < g.clock + 1
      rw [if_neg (by intro h2; subst h2; exact hfH hx)]
      exact Nat.lt_trans (hbH x hx) (Nat.lt_succ_self _)
  | some c =>
    have hsync : (c < g.st.k ∨ f ∈ g.st.histList) ∧ (g.st.k ≤ c ∨ f ∈ g.st.infList) := by
      rw [LRUKReplacer.syncOk, hcm] at hs
      simpa using hs
    by_cases hkc : g.st.k ≤ c
    · -- LRU touch (count already ≥ k)
      have hfH : f ∈ g.st.histList := hsync.1.resolve_left (by omega)
      have hfI : f ∉ g.st.infList := fun h => hdis f h hfH
      have hfE : f ∉ g.st.histList.erase f := by
        intro h
        exact (hnH.mem_erase_iff.mp h).1 rfl
      have heq : g.recordAccess f = ⟨
          { g.st with
            histList := g.st.histList.erase f ++ [f],
            countMap := fun x => if x = f then some (c + 1) else g.st.countMap x },
          g.clock + 1,
          g.firstT,
          fun x => if x = f then g.clock else g.lastT x⟩ := by
        simp [GState.recordAccess, LRUKReplacer.RecordAccess, hcm, hkc]
      rw [heq]
      refine ⟨?_, ?_, ?_, ?_, ?_, ?_, ?_, ?_, ?_, ?_⟩
      · exact hnI
      · exact nodup_append_singleton (hnH.erase f) hfE
      · intro x hx hmem
        rcases List.mem_append.mp hmem with h | h
        · exact hdis x hx (List.mem_of_mem_erase h)
        · simp at h
          subst h
          exact hfI hx
      · intro x
        show (if x = f then some (c + 1) else g.st.countMap x).isSome = true ↔
          (x ∈ g.st.infList ∨ x ∈ g.st.histList.erase f ++ [f])
        by_cases hx : x = f
        · subst hx
          simp [List.mem_append]
        · rw [if_neg hx, htr x]
          simp [List.mem_append, hx, List.mem_erase_of_ne hx]
      · intro x hxne
        show (if x = f then some (c + 1) else g.st.countMap x).isSome = true
        by_cases hx : x = f
        · simp [hx]
        · rw [if_neg hx]
          exact hne x hxne
      · show g.st.currSize =
          ((g.st.infList ++ (g.st.histList.erase f ++ [f])).countP
            (fun x => !g.st.nonEvict x))
        rw [List.countP_append, List.countP_append]
        have h2 : g.st.histList.countP (fun x => !g.st.nonEvict x) =
            (g.st.histList.erase f).countP (fun x => !g.st.nonEvict x) +
              (if !g.st.nonEvict f then 1 else 0) :=
          countP_erase_mem g.st.histList (fun x => !g.st.nonEvict x) f hfH
        rw [hsz, List.countP_append]
        simp only [List.countP_cons, List.countP_nil]
        omega
      · exact hsoI
      · refine pairwise_append_singleton ?_ ?_
        · refine pairwise_lt_transfer (fun x hx => ?_) (hsoH.sublist (List.erase_sublist f g.st.histList))
          show (if x = f then g.clock else g.lastT x) = g.lastT x
          rw [if_neg (hnH.mem_erase_iff.mp hx).1]
        · intro a ha
          show (if a = f then g.clock else g.lastT a) < (if f = f then g.clock else g.lastT f)
          rw [if_neg (hnH.mem_erase_iff.mp ha).1, if_pos rfl]
          exact hbH a (List.mem_of_mem_erase ha)
      · intro x hx
        exact Nat.lt_trans (hbI x hx) (Nat.lt_succ_self _)
      · intro x hx
        show (if x = f then g.clock else g.lastT x) < g.clock + 1
        rcases List.mem_append.mp hx with h | h
        · rw [if_neg (hnH.mem_erase_iff.mp h).1]
          exact Nat.lt_trans (hbH x (List.mem_of_mem_erase h)) (Nat.lt_succ_self _)
        · simp at h
          subst h
          simp
    · have hfI : f ∈ g.st.infList := hsync.2.resolve_left (by omega)
      have hfH : f ∉ g.st.histList := fun h => hdis f hfI h
      by_cases hk1 : g.st.k ≤ c + 1
      · -- promotion from the FIFO list to the LRU list
        have heq : g.recordAccess f = ⟨
            { g.st with
              countMap := fun x => if x = f then some (c + 1) else g.st.countMap x,
              infList := g.st.infList.erase f,
              histList := g.st.histList ++ [f] },
            g.clock + 1,
            g.firstT,
            fun x => if x = f then g.clock else g.lastT x⟩ := by
          simp [GState.recordAccess, LRUKReplacer.RecordAccess, hcm, hkc, hk1]
        rw [heq]
        refine ⟨?_, ?_, ?_, ?_, ?_, ?_, ?_, ?_, ?_, ?_⟩
        · exact hnI.erase f
        · exact nodup_append_singleton hnH hfH
        · intro x hx hmem
          have hxI := List.mem_of_mem_erase hx
          have hxf := (hnI.mem_erase_iff.mp hx).1
          rcases List.mem_append.mp hmem with h | h
          · exact hdis x hxI h
          · simp at h
            exact hxf h
        · intro x
          show (if x = f then some (c + 1) else g.st.countMap x).isSome = true ↔
            (x ∈ g.st.infList.erase f ∨ x ∈ g.st.histList ++ [f])
          by_cases hx : x = f
          · subst hx
            simp [List.mem_append]
          · rw [if_neg hx, htr x]
            simp [List.mem_append, hx, List.mem_erase_of_ne hx]
        · intro x hxne
          show (if x = f then some (c + 1) else g.st.countMap x).isSome = true
          by_cases hx : x = f
          · simp [hx]
          · rw [if_neg hx]
            exact hne x hxne
        · show g.st.currSize =
            ((g.st.infList.erase f ++ (g.st.histList ++ [f])).countP
              (fun x => !g.st.nonEvict x))
          rw [List.countP_append, List.countP_append]
          have h2 : g.st.infList.countP (fun x => !g.st.nonEvict x) =
              (g.st.infList.erase f).countP (fun x => !g.st.nonEvict x) +
                (if !g.st.nonEvict f then 1 else 0) :=
            countP_erase_mem g.st.infList (fun x => !g.st.nonEvict x) f hfI
          rw [hsz, List.countP_append]
          simp only [List.countP_cons, List.countP_nil]
          omega
        · exact hsoI.sublist (List.erase_sublist f g.st.infList)
        · refine pairwise_append_singleton ?_ ?_
          · refine pairwise_lt_transfer (fun x hx => ?_) hsoH
            show (if x = f then g.clock else g.lastT x) = g.lastT x
            rw [if_neg (by intro h; subst h; exact hfH hx)]
          · intro a ha
            show (if a = f then g.clock else g.lastT a) < (if f = f then g.clock else g.lastT f)
            rw [if_neg (by intro h; subst h; exact hfH ha), if_pos rfl]
            exact hbH a ha
        · intro x hx
          exact Nat.lt_trans (hbI x (List.mem_of_mem_erase hx)) (Nat.lt_succ_self _)
        · intro x hx
          show (if x = f then g.clock else g.lastT x) < g.clock + 1
          rcases List.mem_append.mp hx with h | h
          · rw [if_neg (by intro h2; subst h2; exact hfH h)]
            exact Nat.lt_trans (hbH x h) (Nat.lt_succ_self _)
          · simp at h
            subst h
            simp
      · -- plain increment below k
        have heq : g.recordAccess f = ⟨
            { g.st with
              countMap := fun x => if x = f then some (c + 1) else g.st.countMap x },
            g.clock + 1,
            g.firstT,
            fun x => if x = f then g.clock else g.lastT x⟩ := by
          simp [GState.recordAccess, LRUKReplacer.RecordAccess, hcm, hkc, hk1]
        rw [heq]
        refine ⟨?_, ?_, ?_, ?_, ?_, ?_, ?_, ?_, ?_, ?_⟩
        · exact hnI
        · exact hnH
        · exact hdis
        · intro x
          show (if x = f then some (c + 1) else g.st.countMap x).isSome = true ↔
            (x ∈ g.st.infList ∨ x ∈ g.st.histList)
          by_cases hx : x = f
          · subst hx
            simp [hfI]
          · rw [if_neg hx]
            exact htr x
        · intro x hxne
          show (if x = f then some (c + 1) else g.st.countMap x).isSome = true
          by_cases hx : x = f
          · simp [hx]
          · rw [if_neg hx]
            exact hne x hxne
        · exact hsz
        · exact hsoI
        · refine pairwise_lt_transfer (fun x hx => ?_) hsoH
          show (if x = f then g.clock else g.lastT x) = g.lastT x
          rw [if_neg (by intro h; subst h; exact hfH hx)]
        · intro x hx
          exact Nat.lt_trans (hbI x hx) (Nat.lt_succ_self _)
        · intro x hx
          show (if x = f then g.clock else g.lastT x) < g.clock + 1
          rw [if_neg (by intro h; subst h; exact hfH hx)]
          exact Nat.lt_trans (hbH x hx) (Nat.lt_succ_self _)

/-- Dropping an evictable tracked frame from the FIFO list (shared by
`Evict` and `Remove`). -/
theorem ginv_erase_inf (g : GState) (f : Nat) (hinv : GInv g)
    (hfI : f ∈ g.st.infList) (hnef : g.st.nonEvict f = false) :
    GInv ⟨{ g.st with
      infList := g.st.infList.erase f,
      countMap := fun x => if x = f then none else g.st.countMap x,
      currSize := g.st.currSize - 1 }, g.clock, g.firstT, g.lastT⟩ := by
  obtain ⟨hnI, hnH, hdis, htr, hne, hsz, hsoI, hsoH, hbI, hbH⟩ := hinv
  have hfH : f ∉ g.st.histList := hdis f hfI
  refine ⟨?_, ?_, ?_, ?_, ?_, ?_, ?_, ?_, ?_, ?_⟩
  · exact hnI.erase f
  · exact hnH
  · intro x hx
    exact hdis x (List.mem_of_mem_erase hx)
  · intro x
    show (if x = f then none else g.st.countMap x).isSome = true ↔
      (x ∈ g.st.infList.erase f ∨ x ∈ g.st.histList)
    by_cases hx : x = f
    · subst hx
      simp [hnI.mem_erase_iff, hfH]
    · rw [if_neg hx, htr x]
      simp [List.mem_erase_of_ne hx]
  · intro x hxne
    show (if x = f then none else g.st.countMap x).isSome = true
    have hxf : x ≠ f := by
      intro h
      subst h
      rw [hnef] at hxne
      cases hxne
    rw [if_neg hxf]
    exact hne x hxne
  · show g.st.currSize - 1 =
      ((g.st.infList.erase f ++ g.st.histList).countP (fun x => !g.st.nonEvict x))
    rw [List.countP_append]
    have h2 : g.st.infList.countP (fun x => !g.st.nonEvict x) =
        (g.st.infList.erase f).countP (fun x => !g.st.nonEvict x) +
          (if !g.st.nonEvict f then 1 else 0) :=
      countP_erase_mem g.st.infList (fun x => !g.st.nonEvict x) f hfI
    rw [hsz, List.countP_append]
    rw [hnef] at h2
    simp at h2
    omega
  · exact hsoI.sublist (List.erase_sublist f g.st.infList)
  · exact hsoH
  · intro x hx
    exact hbI x (List.mem_of_mem_erase hx)
  · exact hbH

/-- Dropping an evictable tracked frame from the LRU list (shared by
`Evict` and `Remove`). -/
theorem ginv_erase_hist (g : GState) (f : Nat) (hinv : GInv g)
    (hfH : f ∈ g.st.histList) (hnef : g.st.nonEvict f = false) :
    GInv ⟨{ g.st with
      histList := g.st.histList.erase f,
      countMap := fun x => if x = f then none else g.st.countMap x,
      currSize := g.st.currSize - 1 }, g.clock, g.firstT, g.lastT⟩ := by
  obtain ⟨hnI, hnH, hdis, htr, hne, hsz, hsoI, hsoH, hbI, hbH⟩ := hinv
  have hfI : f ∉ g.st.infList := fun h => hdis f h hfH
  refine ⟨?_, ?_, ?_, ?_, ?_, ?_, ?_, ?_, ?_, ?_⟩
  · exact hnI
  · exact hnH.erase f
  · intro x hx hmem
    exact hdis x hx (List.mem_of_mem_erase hmem)
  · intro x
    show (if x = f then none else g.st.countMap x).isSome = true ↔
      (x ∈ g.st.infList ∨ x ∈ g.st.histList.erase f)
    by_cases hx : x = f
    · subst hx
      simp [hnH.mem_erase_iff, hfI]
    · rw [if_neg hx, htr x]
      simp [List.mem_erase_of_ne hx]
  · intro x hxne
    show (if x = f then none else g.st.countMap x).isSome = true
    have hxf : x ≠ f := by
      intro h
      subst h
      rw [hnef] at hxne
      cases hxne
    rw [if_neg hxf]
    exact hne x hxne
  · show g.st.currSize - 1 =
      ((g.st.infList ++ g.st.histList.erase f).countP (fun x => !g.st.nonEvict x))
    rw [List.countP_append]
    have h2 : g.st.histList.countP (fun x => !g.st.nonEvict x) =
        (g.st.histList.erase f).countP (fun x => !g.st.nonEvict x) +
          (if !g.st.nonEvict f then 1 else 0) :=
      countP_erase_mem g.st.histList (fun x => !g.st.nonEvict x) f hfH
    rw [hsz, List.countP_append]
    rw [hnef] at h2
    simp at h2
    omega
  · exact hsoI
  · exact hsoH.sublist (List.erase_sublist f g.st.histList)
  · exact hbI
  · intro x hx
    exact hbH x (List.mem_of_mem_erase hx)

theorem countP_flip_one (L : List Nat) (hnd : L.Nodup) (f : Nat) (hf : f ∈ L)
    (p q : Nat → Bool) (hoff : ∀ x ∈ L, x ≠ f → p x = q x)
    (hpf : p f = true) (hqf : q f = false) :
    L.countP p = L.countP q + 1 := by
  have h1 := countP_erase_mem L p f hf
  have h2 := countP_erase_mem L q f hf
  have h3 : (L.erase f).countP p = (L.erase f).countP q :=
    countP_ptwise _ _ _
      (fun x hx => hoff x (List.mem_of_mem_erase hx) (hnd.mem_erase_iff.mp hx).1)
  rw [hpf] at h1
  rw [hqf] at h2
  simp at h1 h2
  omega

theorem ginv_setEv (g : GState) (f : Nat) (e : Bool) (hinv : GInv g) :
    GInv (g.setEvictable f e) := by
  obtain ⟨hnI, hnH, hdis, htr, hne, hsz, hsoI, hsoH, hbI, hbH⟩ := hinv
  have hLnodup : (g.st.infList ++ g.st.histList).Nodup := by
    rw [List.nodup_append]
    refine ⟨hnI, hnH, ?_⟩
    intro a ha hb
    exact hdis a ha hb
  by_cases htrf : (g.st.countMap f).isSome = true
  · have hfL : f ∈ g.st.infList ++ g.st.histList := by
      rw [List.mem_append]
      exact (htr f).mp htrf
    cases e with
    | false =>
      cases hnef : g.st.nonEvict f with
      | true =>
        have heq : g.setEvictable f false = g := by
          simp [GState.setEvictable, LRUKReplacer.SetEvictable, htrf, hnef]
        rw [heq]
        exact ⟨hnI, hnH, hdis, htr, hne, hsz, hsoI, hsoH, hbI, hbH⟩
      | false =>
        have heq : g.setEvictable f false = ⟨{ g.st with
            nonEvict := fun x => if x = f then true else g.st.nonEvict x,
            currSize := g.st.currSize - 1 }, g.clock, g.firstT, g.lastT⟩ := by
          simp [GState.setEvictable, LRUKReplacer.SetEvictable, htrf, hnef]
        rw [heq]
        refine ⟨hnI, hnH, hdis, htr, ?_, ?_, hsoI, hsoH, hbI, hbH⟩
        · intro x hxne
          show (g.st.countMap x).isSome = true
          by_cases hx : x = f
          · subst hx
            exact htrf
          · refine hne x ?_
            have : (if x = f then true else g.st.nonEvict x) = true := hxne
            rwa [if_neg hx] at this
        · show g.st.currSize - 1 = ((g.st.infList ++ g.st.histList).countP
            (fun x => !(if x = f then true else g.st.nonEvict x)))
          have hflip : (g.st.infList ++ g.st.histList).countP (fun x => !g.st.nonEvict x) =
              (g.st.infList ++ g.st.histList).countP
                (fun x => !(if x = f then true else g.st.nonEvict x)) + 1 := by
            refine countP_flip_one _ hLnodup f hfL _ _ (fun x _ hxf => ?_) ?_ ?_
            · simp [hxf]
            · simp [hnef]
            · simp
          rw [hsz, hflip]
          omega
    | true =>
      cases hnef : g.st.nonEvict f with
      | false =>
        have heq : g.setEvictable f true = g := by
          simp [GState.setEvictable, LRUKReplacer.SetEvictable, htrf, hnef]
        rw [heq]
        exact ⟨hnI, hnH, hdis, htr, hne, hsz, hsoI, hsoH, hbI, hbH⟩
      | true =>
        have heq : g.setEvictable f true = ⟨{ g.st with
            nonEvict := fun x => if x = f then false else g.st.nonEvict x,
            currSize := g.st.currSize + 1 }, g.clock, g.firstT, g.lastT⟩ := by
          simp [GState.setEvictable, LRUKReplacer.SetEvictable, htrf, hnef]
        rw [heq]
        refine ⟨hnI, hnH, hdis, htr, ?_, ?_, hsoI, hsoH, hbI, hbH⟩
        · intro x hxne
          show (g.st.countMap x).isSome = true
          by_cases hx : x = f
          · subst hx
            exact htrf
          · refine hne x ?_
            have : (if x = f then false else g.st.nonEvict x) = true := hxne
            rwa [if_neg hx] at this
        · show g.st.currSize + 1 = ((g.st.infList ++ g.st.histList).countP
            (fun x => !(if x = f then false else g.st.nonEvict x)))
          have hflip : (g.st.infList ++ g.st.histList).countP
              (fun x => !(if x = f then false else g.st.nonEvict x)) =
              (g.st.infList ++ g.st.histList).countP (fun x => !g.st.nonEvict x) + 1 := by
            refine countP_flip_one _ hLnodup f hfL _ _ (fun x _ hxf => ?_) ?_ ?_
            · simp [hxf]
            · simp
            · simp [hnef]
          rw [hsz, hflip]
  · have heq : g.setEvictable f e = g := by
      simp [GState.setEvictable, LRUKReplacer.SetEvictable, htrf]
    rw [heq]
    exact ⟨hnI, hnH, hdis, htr, hne, hsz, hsoI, hsoH, hbI, hbH⟩

theorem ginv_remove (g : GState) (f : Nat) (hinv : GInv g) (hs : g.st.syncOk f = true) :
    GInv (g.remove f) := by
  cases hcm : g.st.countMap f with
  | none =>
    have heq : g.remove f = g := by
      simp [GState.remove, LRUKReplacer.Remove, hcm]
    rw [heq]
    exact hinv
  | some c =>
    cases hnef : g.st.nonEvict f with
    | true =>
      have heq : g.remove f = g := by
        simp [GState.remove, LRUKReplacer.Remove, hcm, hnef]
      rw [heq]
      exact hinv
    | false =>
      have hsync : (c < g.st.k ∨ f ∈ g.st.histList) ∧ (g.st.k ≤ c ∨ f ∈ g.st.infList) := by
        rw [LRUKReplacer.syncOk, hcm] at hs
        simpa using hs
      by_cases hkc : g.st.k ≤ c
      · have hfH : f ∈ g.st.histList := hsync.1.resolve_left (by omega)
        have heq : g.remove f = ⟨{ g.st with
            histList := g.st.histList.erase f,
            countMap := fun x => if x = f then none else g.st.countMap x,
            currSize := g.st.currSize - 1 }, g.clock, g.firstT, g.lastT⟩ := by
          simp [GState.remove, LRUKReplacer.Remove, hcm, hnef, hkc]
        rw [heq]
        exact ginv_erase_hist g f hinv hfH hnef
      · have hfI : f ∈ g.st.infList := hsync.2.resolve_left (by omega)
        have heq : g.remove f = ⟨{ g.st with
            infList := g.st.infList.erase f,
            countMap := fun x => if x = f then none else g.st.countMap x,
            currSize := g.st.currSize - 1 }, g.clock, g.firstT, g.lastT⟩ := by
          simp [GState.remove, LRUKReplacer.Remove, hcm, hnef, hkc]
        rw [heq]
        exact ginv_erase_inf g f hinv hfI hnef

theorem ginv_evict (g : GState) (hinv : GInv g) : GInv g.evict := by
  by_cases hcz : g.st.currSize = 0
  · have heq : g.evict = g := by
      simp [GState.evict, LRUKReplacer.Evict, hcz]
    rw [heq]
    exact hinv
  · cases hfind : g.st.infList.find? (fun x => !g.st.nonEvict x) with
    | some f =>
      have hfI : f ∈ g.st.infList := List.mem_of_find?_eq_some hfind
      have hnef : g.st.nonEvict f = false := by
        have h2 := List.find?_some hfind
        simpa using h2
      have heq : g.evict = ⟨{ g.st with
          countMap := fun x => if x = f then none else g.st.countMap x,
          infList := g.st.infList.erase f,
          currSize := g.st.currSize - 1 }, g.clock, g.firstT, g.lastT⟩ := by
        simp [GState.evict, LRUKReplacer.Evict, hcz, hfind]
      rw [heq]
      exact ginv_erase_inf g f hinv hfI hnef
    | none =>
      cases hfind2 : g.st.histList.find? (fun x => !g.st.nonEvict x) with
      | some f =>
        have hfH : f ∈ g.st.histList := List.mem_of_find?_eq_some hfind2
        have hnef : g.st.nonEvict f = false := by
          have h2 := List.find?_some hfind2
          simpa using h2
        have heq : g.evict = ⟨{ g.st with
            countMap := fun x => if x = f then none else g.st.countMap x,
            histList := g.st.histList.erase f,
            currSize := g.st.currSize - 1 }, g.clock, g.firstT, g.lastT⟩ := by
          simp [GState.evict, LRUKReplacer.Evict, hcz, hfind, hfind2]
        rw [heq]
        exact ginv_erase_hist g f hinv hfH hnef
      | none =>
        have heq : g.evict = g := by
          simp [GState.evict, LRUKReplacer.Evict, hcz, hfind, hfind2]
        rw [heq]
        exact hinv

/-- Every reachable replacer state satisfies the representation invariant. -/
theorem gReach_inv (g : GState) (h : GReach g) : GInv g := by
  induction h with
  | init numFrames kv => exact ginv_init numFrames kv
  | step_record g2 f h hf hs ih => exact ginv_record g2 f ih hs
  | step_set g2 f e h hf ih => exact ginv_setEv g2 f e ih
  | step_remove g2 f h hf hs ih => exact ginv_remove g2 f ih hs
  | step_evict g2 h ih => exact ginv_evict g2 ih

/-- The first match of a scan over a sorted list minimizes the sort key
among all matches. -/
theorem find?_min_of_pairwise {l : List Nat} {p : Nat → Bool} {t : Nat → Nat}
    (hsort : l.Pairwise (fun a b => t a < t b)) {f : Nat}
    (hfind : l.find? p = some f) :
    ∀ x ∈ l, p x = true → t f ≤ t x := by
  induction l with
  | nil => simp at hfind
  | cons a rest ih =>
    by_cases hpa : p a = true
    · rw [List.find?_cons_of_pos rest hpa] at hfind
      injection hfind with h
      subst h
      intro x hx hpx
      rcases List.mem_cons.mp hx with h | h
      · subst h
        exact Nat.le_refl _
      · exact Nat.le_of_lt ((List.pairwise_cons.mp hsort).1 x h)
    · rw [List.find?_cons_of_neg rest (by simpa using hpa)] at hfind
      intro x hx hpx
      rcases List.mem_cons.mp hx with h | h
      · subst h
        exact absurd hpx hpa
      · exact ih (List.pairwise_cons.mp hsort).2 hfind x h hpx

/-- C6: on every reachable replacer state, `Evict` returns absent exactly
when every tracked frame is non-evictable; on success it returns an
evictable tracked frame that is either the member of the infinite-history
list with the oldest first access among its evictable members, or — when
every member of that list is non-evictable — the member of the LRU list with
the least recent access among its evictable members; the evicted frame
leaves the count map and both lists and `curr_size_` decreases by one.  In
particular, with `k = 2` and accesses A, B, A (frames 0, 1, 0), `Evict`
returns B (frame 1). -/
theorem replacer_evict_policy (g : GState) (hg : GReach g) :
    ((g.st.Evict).1 = none ↔
      ∀ f, (g.st.countMap f).isSome = true → g.st.nonEvict f = true) ∧
    (∀ f, (g.st.Evict).1 = some f →
      (g.st.countMap f).isSome = true ∧ g.st.nonEvict f = false ∧
      ((f ∈ g.st.infList ∧
          ∀ x ∈ g.st.infList, g.st.nonEvict x = false → g.firstT f ≤ g.firstT x) ∨
        ((∀ x ∈ g.st.infList, g.st.nonEvict x = true) ∧ f ∈ g.st.histList ∧
          ∀ x ∈ g.st.histList, g.st.nonEvict x = false → g.lastT f ≤ g.lastT x)) ∧
      (g.st.Evict).2.countMap f = none ∧ f ∉ (g.st.Evict).2.infList ∧
      f ∉ (g.st.Evict).2.histList ∧ (g.st.Evict).2.currSize = g.st.currSize - 1) ∧
    ((((GState.init 2 2).recordAccess 0).recordAccess 1).recordAccess 0).st.Evict.1
      = some 1 := by
  obtain ⟨hnI, hnH, hdis, htr, hne, hsz, hsoI, hsoH, hbI, hbH⟩ := gReach_inv g hg
  refine ⟨⟨?_, ?_⟩, ?_, ?_⟩
  · -- none implies all tracked frames are pinned
    intro hnone f htrf
    by_contra hnef0
    have hnef : g.st.nonEvict f = false := by simpa using hnef0
    have hfL : f ∈ g.st.infList ∨ f ∈ g.st.histList := (htr f).mp htrf
    have hcz : ¬ g.st.currSize = 0 := by
      rw [hsz]
      have hpos : 0 < (g.st.infList ++ g.st.histList).countP (fun x => !g.st.nonEvict x) := by
        rw [List.countP_pos_iff]
        exact ⟨f, by rw [List.mem_append]; exact hfL, by simp [hnef]⟩
      omega
    cases hfind : g.st.infList.find? (fun x => !g.st.nonEvict x) with
    | some f0 => simp [LRUKReplacer.Evict, hcz, hfind] at hnone
    | none =>
      have hfH : f ∈ g.st.histList := by
        rcases hfL with h | h
        · have h2 := List.find?_eq_none.mp hfind f h
          simp [hnef] at h2
        · exact h
      cases hfind2 : g.st.histList.find? (fun x => !g.st.nonEvict x) with
      | some f0 => simp [LRUKReplacer.Evict, hcz, hfind, hfind2] at hnone
      | none =>
        have h2 := List.find?_eq_none.mp hfind2 f hfH
        simp [hnef] at h2
  · -- all pinned implies none (the curr_size_ == 0 early return)
    intro hall
    have hzero : g.st.currSize = 0 := by
      rw [hsz]
      rw [List.countP_eq_zero]
      intro x hx
      have htrx : (g.st.countMap x).isSome = true := by
        rw [htr x, ← List.mem_append]
        exact hx
      simp [hall x htrx]
    simp [LRUKReplacer.Evict, hzero]
  · -- success case
    intro f hf
    by_cases hcz : g.st.currSize = 0
    · simp [LRUKReplacer.Evict, hcz] at hf
    · cases hfind : g.st.infList.find? (fun x => !g.st.nonEvict x) with
      | some f0 =>
        have hev : g.st.Evict = (some f0, { g.st with
            countMap := fun x => if x = f0 then none else g.st.countMap x,
            infList := g.st.infList.erase f0,
            currSize := g.st.currSize - 1 }) := by
          simp [LRUKReplacer.Evict, hcz, hfind]
        rw [hev] at hf
        injection hf with hf0
        rw [hf0] at hev hfind
        have hfI : f ∈ g.st.infList := List.mem_of_find?_eq_some hfind
        have hnef : g.st.nonEvict f = false := by
          have h2 := List.find?_some hfind
          simpa using h2
        rw [hev]
        refine ⟨(htr f).mpr (Or.inl hfI), hnef, ?_, ?_, ?_, ?_, ?_⟩
        · refine Or.inl ⟨hfI, fun x hx hex => ?_⟩
          exact find?_min_of_pairwise hsoI hfind x hx (by simp [hex])
        · show (if f = f then none else g.st.countMap f) = none
          rw [if_pos rfl]
        · show f ∉ g.st.infList.erase f
          intro h
          exact (hnI.mem_erase_iff.mp h).1 rfl
        · show f ∉ g.st.histList
          exact hdis f hfI
        · rfl
      | none =>
        cases hfind2 : g.st.histList.find? (fun x => !g.st.nonEvict x) with
        | some f0 =>
          have hev : g.st.Evict = (some f0, { g.st with
              countMap := fun x => if x = f0 then none else g.st.countMap x,
              histList := g.st.histList.erase f0,
              currSize := g.st.currSize - 1 }) := by
            simp [LRUKReplacer.Evict, hcz, hfind, hfind2]
          rw [hev] at hf
          injection hf with hf0
          rw [hf0] at hev hfind2
          have hfH : f ∈ g.st.histList := List.mem_of_find?_eq_some hfind2
          have hnef : g.st.nonEvict f = false := by
            have h2 := List.find?_some hfind2
            simpa using h2
          rw [hev]
          refine ⟨(htr f).mpr (Or.inr hfH), hnef, ?_, ?_, ?_, ?_, ?_⟩
          · refine Or.inr ⟨fun x hx => ?_, hfH, fun x hx hex => ?_⟩
            · have h2 := List.find?_eq_none.mp hfind x hx
              simpa using h2
            · exact find?_min_of_pairwise hsoH hfind2 x hx (by simp [hex])
          · show (if f = f then none else g.st.countMap f) = none
            rw [if_pos rfl]
          · show f ∉ g.st.infList
            intro h
            exact hdis f h hfH
          · show f ∉ g.st.histList.erase f
            intro h
            exact (hnH.mem_erase_iff.mp h).1 rfl
          · rfl
        | none =>
          simp [LRUKReplacer.Evict, hcz, hfind, hfind2] at hf
  · rfl

/-- Witness for C6: applying the policy theorem at the concrete reachable
state with `k = 2` and accesses 0, 1, 0 — `Evict` returns frame 1 (B). -/
theorem replacer_evict_policy_witness :
    ((((GState.init 2 2).recordAccess 0).recordAccess 1).recordAccess 0).st.Evict.1
      = some 1 :=
  (replacer_evict_policy
    ((((GState.init 2 2).recordAccess 0).recordAccess 1).recordAccess 0)
    (GReach.step_record _ 0
      (GReach.step_record _ 1
        (GReach.step_record _ 0 (GReach.init 2 2) (by decide) (by decide))
        (by decide) (by decide))
      (by decide) (by decide))).2.2

theorem recordAccess_k (s : LRUKReplacer) (f : Nat) : (s.RecordAccess f).k = s.k := by
  rw [LRUKReplacer.RecordAccess]
  cases s.countMap f with
  | none => rfl
  | some c =>
    by_cases h1 : s.k ≤ c
    · simp [h1]
    · by_cases h2 : s.k ≤ c + 1 <;> simp [h1, h2]

/-- Frame lists, counts and `k` survive `SetEvictable`: it only touches the non-evictable set and `curr_size_`. -/
theorem setEvictable_fields (s : LRUKReplacer) (f : Nat) (e : Bool) :
    (s.SetEvictable f e).countMap = s.countMap ∧
    (s.SetEvictable f e).infList = s.infList ∧
    (s.SetEvictable f e).histList = s.histList ∧
    (s.SetEvictable f e).k = s.k := by
  by_cases h1 : (s.countMap f).isSome = false
  · simp [LRUKReplacer.SetEvictable, h1]
  · cases e with
    | false =>
      cases h2 : s.nonEvict f with
      | false => simp [LRUKReplacer.SetEvictable, h1, h2]
      | true => simp [LRUKReplacer.SetEvictable, h1, h2]
    | true =>
      cases h2 : s.nonEvict f with
      | false => simp [LRUKReplacer.SetEvictable, h1, h2]
      | true => simp [LRUKReplacer.SetEvictable, h1, h2]

theorem remove_k (s : LRUKReplacer) (f : Nat) : (s.Remove f).k = s.k := by
  rw [LRUKReplacer.Remove]
  cases s.countMap f with
  | none => rfl
  | some c =>
    by_cases h1 : s.nonEvict f
    · simp [h1]
    · by_cases h2 : s.k ≤ c <;> simp [h1, h2]

theorem evict_k (s : LRUKReplacer) : (s.Evict).2.k = s.k := by
  rw [LRUKReplacer.Evict]
  split
  · rfl
  · cases s.infList.find? (fun x => !s.nonEvict x) with
    | some f => rfl
    | none =>
      cases s.histList.find? (fun x => !s.nonEvict x) with
      | some f => rfl
      | none => rfl

/-- The list-membership/count correspondence of C8: a tracked frame sits in
the infinite-history FIFO list exactly when its count is below `k`, and in
the bounded-history LRU list exactly when its count has reached `k`. -/
def ListCountInv (s : LRUKReplacer) : Prop :=
  ∀ f c, s.countMap f = some c →
    ((f ∈ s.infList ↔ c < s.k) ∧ (f ∈ s.histList ↔ s.k ≤ c))

/-- C8 (amended to `k ≥ 2`): on every reachable replacer state with
`k ≥ 2`, the list-membership/count correspondence holds.  (With `k = 1` it
fails after the very first access: the frame is appended to the FIFO list
with count `1 ≥ k`.) -/
theorem replacer_list_membership (g : GState) (hg : GReach g) :
    2 ≤ g.st.k → ListCountInv g.st := by
  induction hg with
  | init numFrames kv =>
    intro _ f c h
    simp [GState.init, LRUKReplacer.init] at h
  | step_record g2 f2 h hf hs ih =>
    intro hk
    have hk2 : 2 ≤ g2.st.k := by
      have hkeq : (g2.recordAccess f2).st.k = g2.st.k := recordAccess_k g2.st f2
      rw [hkeq] at hk
      exact hk
    have hold := ih hk2
    obtain ⟨hnI, hnH, hdis, htr, hne, hsz, hsoI, hsoH, hbI, hbH⟩ := gReach_inv g2 h
    show ListCountInv (g2.st.RecordAccess f2)
    cases hcm : g2.st.countMap f2 with
    | none =>
      have hfH : f2 ∉ g2.st.histList := by
        intro hmem
        have h2 := (htr f2).mpr (Or.inr hmem)
        rw [hcm] at h2
        simp at h2
      have heq : g2.st.RecordAccess f2 = { g2.st with
          infList := g2.st.infList ++ [f2],
          countMap := fun x => if x = f2 then some 1 else g2.st.countMap x,
          currSize := g2.st.currSize + 1 } := by
        simp [LRUKReplacer.RecordAccess, hcm]
      rw [heq]
      intro f c hc
      by_cases hff : f = f2
      · subst hff
        have hc2 : (some 1 : Option Nat) = some c := by simpa using hc
        injection hc2 with hc3
        subst hc3
        constructor
        · simp [List.mem_append]
          omega
        · show f ∈ g2.st.histList ↔ g2.st.k ≤ 1
          simp [hfH]
          omega
      · have hc2 : g2.st.countMap f = some c := by
          have : (if f = f2 then some 1 else g2.st.countMap f) = some c := hc
          rwa [if_neg hff] at this
        have hres := hold f c hc2
        constructor
        · show f ∈ g2.st.infList ++ [f2] ↔ c < g2.st.k
          rw [List.mem_append]
          simp [hff]
          exact hres.1
        · exact hres.2
    | some c0 =>
      by_cases hkc : g2.st.k ≤ c0
      · have hfH : f2 ∈ g2.st.histList := (hold f2 c0 hcm).2.mpr hkc
        have hfI : f2 ∉ g2.st.infList := fun hmem => hdis f2 hmem hfH
        have heq : g2.st.RecordAccess f2 = { g2.st with
            histList := g2.st.histList.erase f2 ++ [f2],
            countMap := fun x => if x = f2 then some (c0 + 1) else g2.st.countMap x } := by
          simp [LRUKReplacer.RecordAccess, hcm, hkc]
        rw [heq]
        intro f c hc
        by_cases hff : f = f2
        · subst hff
          have hc2 : (some (c0 + 1) : Option Nat) = some c := by simpa using hc
          injection hc2 with hc3
          subst hc3
          constructor
          · simp [hfI]
            omega
          · show f ∈ g2.st.histList.erase f ++ [f] ↔ g2.st.k ≤ c0 + 1
            simp [List.mem_append]
            omega
        · have hc2 : g2.st.countMap f = some c := by
            have : (if f = f2 then some (c0 + 1) else g2.st.countMap f) = some c := hc
            rwa [if_neg hff] at this
          have hres := hold f c hc2
          constructor
          · exact hres.1
          · show f ∈ g2.st.histList.erase f2 ++ [f2] ↔ g2.st.k ≤ c
            rw [List.mem_append]
            simp [hff, List.mem_erase_of_ne hff]
            exact hres.2
      · have hfI : f2 ∈ g2.st.infList := (hold f2 c0 hcm).1.mpr (by omega)
        have hfH : f2 ∉ g2.st.histList := hdis f2 hfI
        by_cases hk1 : g2.st.k ≤ c0 + 1
        · have heq : g2.st.RecordAccess f2 = { g2.st with
              countMap := fun x => if x = f2 then some (c0 + 1) else g2.st.countMap x,
              infList := g2.st.infList.erase f2,
              histList := g2.st.histList ++ [f2] } := by
            simp [LRUKReplacer.RecordAccess, hcm, hkc, hk1]
          rw [heq]
          intro f c hc
          by_cases hff : f = f2
          · subst hff
            have hc2 : (some (c0 + 1) : Option Nat) = some c := by simpa using hc
            injection hc2 with hc3
            subst hc3
            constructor
            · show f ∈ g2.st.infList.erase f ↔ c0 + 1 < g2.st.k
              simp [hnI.mem_erase_iff]
              omega
            · simp [List.mem_append]
              omega
          · have hc2 : g2.st.countMap f = some c := by
              have : (if f = f2 then some (c0 + 1) else g2.st.countMap f) = some c := hc
              rwa [if_neg hff] at this
            have hres := hold f c hc2
            constructor
            · show f ∈ g2.st.infList.erase f2 ↔ c < g2.st.k
              rw [List.mem_erase_of_ne hff]
              exact hres.1
            · show f ∈ g2.st.histList ++ [f2] ↔ g2.st.k ≤ c
              rw [List.mem_append]
              simp [hff]
              exact hres.2
        · have heq : g2.st.RecordAccess f2 = { g2.st with
              countMap := fun x => if x = f2 then some (c0 + 1) else g2.st.countMap x } := by
            simp [LRUKReplacer.RecordAccess, hcm, hkc, hk1]
          rw [heq]
          intro f c hc
          by_cases hff : f = f2
          · subst hff
            have hc2 : (some (c0 + 1) : Option Nat) = some c := by simpa using hc
            injection hc2 with hc3
            subst hc3
            constructor
            · simp [hfI]
              omega
            · simp [hfH]
              omega
          · have hc2 : g2.st.countMap f = some c := by
              have : (if f = f2 then some (c0 + 1) else g2.st.countMap f) = some c := hc
              rwa [if_neg hff] at this
            exact hold f c hc2
  | step_set g2 f2 e h hf ih =>
    intro hk
    obtain ⟨hcmEq, hinfEq, hhistEq, hkEq⟩ := setEvictable_fields g2.st f2 e
    have hk2 : 2 ≤ g2.st.k := by
      have : (g2.setEvictable f2 e).st.k = g2.st.k := hkEq
      rw [this] at hk
      exact hk
    have hold := ih hk2
    intro f c hc
    show (f ∈ (g2.st.SetEvictable f2 e).infList ↔ c < (g2.st.SetEvictable f2 e).k) ∧
      (f ∈ (g2.st.SetEvictable f2 e).histList ↔ (g2.st.SetEvictable f2 e).k ≤ c)
    rw [hinfEq, hhistEq, hkEq]
    have hc2 : g2.st.countMap f = some c := by
      have : (g2.st.SetEvictable f2 e).countMap f = some c := hc
      rwa [hcmEq] at this
    exact hold f c hc2
  | step_remove g2 f2 h hf hs ih =>
    intro hk
    have hk2 : 2 ≤ g2.st.k := by
      have hkeq : (g2.remove f2).st.k = g2.st.k := remove_k g2.st f2
      rw [hkeq] at hk
      exact hk
    have hold := ih hk2
    show ListCountInv (g2.st.Remove f2)
    cases hcm : g2.st.countMap f2 with
    | none =>
      have heq : g2.st.Remove f2 = g2.st := by
        simp [LRUKReplacer.Remove, hcm]
      rw [heq]
      exact hold
    | some c0 =>
      cases hnef : g2.st.nonEvict f2 with
      | true =>
        have heq : g2.st.Remove f2 = g2.st := by
          simp [LRUKReplacer.Remove, hcm, hnef]
        rw [heq]
        exact hold
      | false =>
        by_cases hkc : g2.st.k ≤ c0
        · have heq : g2.st.Remove f2 = { g2.st with
              histList := g2.st.histList.erase f2,
              countMap := fun x => if x = f2 then none else g2.st.countMap x,
              currSize := g2.st.currSize - 1 } := by
            simp [LRUKReplacer.Remove, hcm, hnef, hkc]
          rw [heq]
          intro f c hc
          by_cases hff : f = f2
          · subst hff
            have : (none : Option Nat) = some c := by simpa using hc
            cases this
          · have hc2 : g2.st.countMap f = some c := by
              have : (if f = f2 then none else g2.st.countMap f) = some c := hc
              rwa [if_neg hff] at this
            have hres := hold f c hc2
            constructor
            · exact hres.1
            · show f ∈ g2.st.histList.erase f2 ↔ g2.st.k ≤ c
              rw [List.mem_erase_of_ne hff]
              exact hres.2
        · have heq : g2.st.Remove f2 = { g2.st with
              infList := g2.st.infList.erase f2,
              countMap := fun x => if x = f2 then none else g2.st.countMap x,
              currSize := g2.st.currSize - 1 } := by
            simp [LRUKReplacer.Remove, hcm, hnef, hkc]
          rw [heq]
          intro f c hc
          by_cases hff : f = f2
          · subst hff
            have : (none : Option Nat) = some c := by simpa using hc
            cases this
          · have hc2 : g2.st.countMap f = some c := by
              have : (if f = f2 then none else g2.st.countMap f) = some c := hc
              rwa [if_neg hff] at this
            have hres := hold f c hc2
            constructor
            · show f ∈ g2.st.infList.erase f2 ↔ c < g2.st.k
              rw [List.mem_erase_of_ne hff]
              exact hres.1
            · exact hres.2
  | step_evict g2 h ih =>
    intro hk
    have hk2 : 2 ≤ g2.st.k := by
      have hkeq : (g2.evict).st.k = g2.st.k := evict_k g2.st
      rw [hkeq] at hk
      exact hk
    have hold := ih hk2
    show ListCountInv (g2.st.Evict).2
    by_cases hcz : g2.st.currSize = 0
    · have heq : (g2.st.Evict).2 = g2.st := by
        simp [LRUKReplacer.Evict, hcz]
      rw [heq]
      exact hold
    · cases hfind : g2.st.infList.find? (fun x => !g2.st.nonEvict x) with
      | some f0 =>
        have heq : (g2.st.Evict).2 = { g2.st with
            countMap := fun x => if x = f0 then none else g2.st.countMap x,
            infList := g2.st.infList.erase f0,
            currSize := g2.st.currSize - 1 } := by
          simp [LRUKReplacer.Evict, hcz, hfind]
        rw [heq]
        intro f c hc
        by_cases hff : f = f0
        · subst hff
          have : (none : Option Nat) = some c := by simpa using hc
          cases this
        · have hc2 : g2.st.countMap f = some c := by
            have : (if f = f0 then none else g2.st.countMap f) = some c := hc
            rwa [if_neg hff] at this
          have hres := hold f c hc2
          constructor
          · show f ∈ g2.st.infList.erase f0 ↔ c < g2.st.k
            rw [List.mem_erase_of_ne hff]
            exact hres.1
          · exact hres.2
      | none =>
        cases hfind2 : g2.st.histList.find? (fun x => !g2.st.nonEvict x) with
        | some f0 =>
          have heq : (g2.st.Evict).2 = { g2.st with
              countMap := fun x => if x = f0 then none else g2.st.countMap x,
              histList := g2.st.histList.erase f0,
              currSize := g2.st.currSize - 1 } := by
            simp [LRUKReplacer.Evict, hcz, hfind, hfind2]
          rw [heq]
          intro f c hc
          by_cases hff : f = f0
          · subst hff
            have : (none : Option Nat) = some c := by simpa using hc
            cases this
          · have hc2 : g2.st.countMap f = some c := by
              have : (if f = f0 then none else g2.st.countMap f) = some c := hc
              rwa [if_neg hff] at this
            have hres := hold f c hc2
            constructor
            · exact hres.1
            · show f ∈ g2.st.histList.erase f0 ↔ g2.st.k ≤ c
              rw [List.mem_erase_of_ne hff]
              exact hres.2
        | none =>
          have heq : (g2.st.Evict).2 = g2.st := by
            simp [LRUKReplacer.Evict, hcz, hfind, hfind2]
          rw [heq]
          exact hold

/-- C8 counterexample: with `k = 1`, after a single `record_access(0)` the
frame has count `1 ≥ k` yet sits in the infinite-history FIFO list — the
claimed correspondence fails on a reachable state. -/
theorem replacer_list_membership_k1_cex :
    GReach ((GState.init 1 1).recordAccess 0) ∧
    ¬ ListCountInv ((GState.init 1 1).recordAccess 0).st := by
  constructor
  · exact GReach.step_record _ 0 (GReach.init 1 1) (by decide) (by decide)
  · intro h
    have h2 := h 0 1 rfl
    have h3 := h2.1.mp (by decide)
    exact absurd h3 (by decide)

/-- Witness for C8 at the concrete reachable state with `k = 2` and accesses
0, 1, 0. -/
theorem replacer_list_membership_witness :
    ListCountInv ((((GState.init 2 2).recordAccess 0).recordAccess 1).recordAccess 0).st :=
  replacer_list_membership
    ((((GState.init 2 2).recordAccess 0).recordAccess 1).recordAccess 0)
    (GReach.step_record _ 0
      (GReach.step_record _ 1
        (GReach.step_record _ 0 (GReach.init 2 2) (by decide) (by decide))
        (by decide) (by decide))
      (by decide) (by decide))
    (by decide)

/-! ### Buffer pool manager (`src/buffer/buffer_pool_manager.cpp`)

Every public method holds `latch_` for its whole body, and each disk request
goes through the scheduler with the caller blocking on the completion future
(lines 81-84, 121-124, 135-138), so a method call is one atomic transition
and a scheduled request is a synchronous disk update.  `Page`, `DiskManager`
and the header-only members (`next_page_id_`, `AllocatePage`,
`DeallocatePage`) are not under src/ and are modelled from the spec:
a page is a `PAGE_SIZE` byte buffer with `{page_id, pin_count, is_dirty}`
(§3); the disk maps page ids to `PAGE_SIZE` buffers, zeroed initially (§8);
the allocator is a monotonically increasing counter (§4.5) starting at 0;
deallocation is recorded (the spec only says `delete_page` "deallocate[s]
the page id"). -/

/-- Modelled from the spec: a `Page` (§3) — a byte buffer plus metadata. -/
structure Page where
  data : List Nat
  pageId : Int
  pinCount : Int
  isDirty : Bool
deriving Repr, DecidableEq

/-- A freshly reset page: zeroed memory, `INVALID_PAGE_ID = -1`, unpinned. -/
def Page.reset (pageSize : Nat) : Page :=
  ⟨List.replicate pageSize 0, -1, 0, false⟩

/-- The pool state (buffer_pool_manager.h members). -/
structure BufferPoolManager where
  poolSize : Nat
  pageSize : Nat
  pages : List Page
  freeList : List Nat
  pageTable : Int → Option Nat
  replacer : LRUKReplacer
  nextPageId : Int
  disk : Int → List Nat
  deallocated : List Int

/-- The constructor (lines 50-67): all frames on the free list (0 … n−1
appended in order; the list is popped from the back). -/
def BufferPoolManager.init (poolSize pageSize kv : Nat) : BufferPoolManager :=
  { poolSize := poolSize, pageSize := pageSize,
    pages := List.replicate poolSize (Page.reset pageSize),
    freeList := List.range poolSize,
    pageTable := fun _ => none,
    replacer := LRUKReplacer.init poolSize kv,
    nextPageId := 0,
    disk := fun _ => List.replicate pageSize 0,
    deallocated := [] }

/-- Read of `pages_[fid]`. -/
def BufferPoolManager.getPage (s : BufferPoolManager) (fid : Nat) : Page :=
  s.pages.getD fid (Page.reset s.pageSize)

/-- Lines 90-101 of `NewPage`: `AllocatePage`, reset the frame's memory and
metadata with `pin_count = 1`, record the access and pin the frame in the
replacer, install the page-table entry. -/
def BufferPoolManager.newPageFinish (s : BufferPoolManager) (fid : Nat) :
    BufferPoolManager × Option (Int × Nat) :=
  let pid := s.nextPageId
  let s1 := { s with nextPageId := s.nextPageId + 1 }
  let s2 := { s1 with
    pages := s1.pages.set fid ⟨List.replicate s1.pageSize 0, pid, 1, false⟩ }
  let s3 := { s2 with
    replacer := (s2.replacer.RecordAccess fid).SetEvictable fid false }
  let s4 := { s3 with
    pageTable := fun q => if q = pid then some fid else s3.pageTable q }
  (s4, some (pid, fid))

/-- Model of `NewPage` (lines 71-102): frame from the back of the free list, else an
evicted victim (writing its bytes to disk first when dirty, and erasing its
page-table entry), else `nullptr` (`none`; the out-parameter `page_id` is
not written).  On success returns the allocated page id and the frame. -/
def BufferPoolManager.NewPage (s : BufferPoolManager) :
    BufferPoolManager × Option (Int × Nat) :=
  match s.freeList.getLast? with
  | some fid =>
    let s1 := { s with freeList := s.freeList.dropLast }
    s1.newPageFinish fid
  | none =>
    match s.replacer.Evict with
    | (some fid, r2) =>
      let s1 := { s with replacer := r2 }
      let pg := s1.getPage fid
      let s2 := if pg.isDirty then
          { s1 with disk := fun q => if q = pg.pageId then pg.data else s1.disk q }
        else s1
      let s3 := { s2 with
        pageTable := fun q => if q = pg.pageId then none else s2.pageTable q }
      s3.newPageFinish fid
    | (none, r2) => ({ s with replacer := r2 }, none)

/-- Lines 130-143 of `FetchPage` (miss): reset the frame's metadata with
`pin_count = 1`, read the page from disk (scheduled and awaited), record the
access and pin the frame, install the page-table entry. -/
def BufferPoolManager.fetchPageFinish (s : BufferPoolManager) (fid : Nat) (pid : Int) :
    BufferPoolManager × Option Nat :=
  let s1 := { s with pages := s.pages.set fid ⟨s.disk pid, pid, 1, false⟩ }
  let s2 := { s1 with
    replacer := (s1.replacer.RecordAccess fid).SetEvictable fid false }
  let s3 := { s2 with
    pageTable := fun q => if q = pid then some fid else s2.pageTable q }
  (s3, some fid)

/-- Model of `FetchPage` (lines 104-144): on a hit increment the pin and pin the
frame in the replacer; on a miss acquire a frame exactly as `NewPage` does
(dirty victim written back first) and read the page in.  Returns the frame
on success. -/
def BufferPoolManager.FetchPage (s : BufferPoolManager) (pid : Int) :
    BufferPoolManager × Option Nat :=
  match s.pageTable pid with
  | some fid =>
    let pg := s.getPage fid
    let s1 := { s with pages := s.pages.set fid { pg with pinCount := pg.pinCount + 1 } }
    let s2 := { s1 with
      replacer := (s1.replacer.RecordAccess fid).SetEvictable fid false }
    (s2, some fid)
  | none =>
    match s.freeList.getLast? with
    | some fid =>
      let s1 := { s with freeList := s.freeList.dropLast }
      s1.fetchPageFinish fid pid
    | none =>
      match s.replacer.Evict with
      | (some fid, r2) =>
        let s1 := { s with replacer := r2 }
        let pg := s1.getPage fid
        let s2 := if pg.isDirty then
            { s1 with disk := fun q => if q = pg.pageId then pg.data else s1.disk q }
          else s1
        let s3 := { s2 with
          pageTable := fun q => if q = pg.pageId then none else s2.pageTable q }
        s3.fetchPageFinish fid pid
      | (none, r2) => ({ s with replacer := r2 }, none)

/-- Model of `UnpinPage` (lines 146-165): failure on a non-resident id or a pin count
already ≤ 0; otherwise decrement the pin, OR in the dirty flag, and mark the
frame evictable when the pin reaches 0. -/
def BufferPoolManager.UnpinPage (s : BufferPoolManager) (pid : Int) (dirty : Bool) :
    BufferPoolManager × Bool :=
  match s.pageTable pid with
  | none => (s, false)
  | some fid =>
    let pg := s.getPage fid
    if pg.pinCount ≤ 0 then (s, false)
    else
      let pg2 : Page := { pg with
        pinCount := pg.pinCount - 1,
        isDirty := if dirty then true else pg.isDirty }
      let s1 := { s with pages := s.pages.set fid pg2 }
      let s2 := if pg2.pinCount ≤ 0 then
          { s1 with replacer := s1.replacer.SetEvictable fid true }
        else s1
      (s2, true)

/-- Model of `DeletePage` (lines 193-212): success on a non-resident id (no change);
failure on a pinned page (no change); otherwise remove the frame from the
replacer, erase the page-table entry, push the frame onto the free list,
reset the frame, and deallocate the id — without any disk write. -/
def BufferPoolManager.DeletePage (s : BufferPoolManager) (pid : Int) :
    BufferPoolManager × Bool :=
  match s.pageTable pid with
  | none => (s, true)
  | some fid =>
    let pg := s.getPage fid
    if pg.pinCount > 0 then (s, false)
    else
      let s1 := { s with replacer := s.replacer.Remove fid }
      let s2 := { s1 with
        pageTable := fun q => if q = pid then none else s1.pageTable q }
      let s3 := { s2 with freeList := s2.freeList ++ [fid] }
      let s4 := { s3 with pages := s3.pages.set fid (Page.reset s3.pageSize) }
      let s5 := { s4 with deallocated := s4.deallocated ++ [pid] }
      (s5, true)

/-- Modelled from the spec: a caller writing one byte at an offset through
the returned frame's buffer (`Page::GetData`); the `Page` class is not under
src/. -/
def BufferPoolManager.writeByte (s : BufferPoolManager) (fid off b : Nat) :
    BufferPoolManager :=
  let pg := s.getPage fid
  { s with pages := s.pages.set fid { pg with data := pg.data.set off b } }

/-- Failing `Evict` mutates nothing. -/
theorem evict_fst_none (s : LRUKReplacer) (h : (s.Evict).1 = none) :
    s.Evict = (none, s) := by
  by_cases hcz : s.currSize = 0
  · simp [LRUKReplacer.Evict, hcz]
  · cases hfind : s.infList.find? (fun x => !s.nonEvict x) with
    | some f => simp [LRUKReplacer.Evict, hcz, hfind] at h
    | none =>
      cases hfind2 : s.histList.find? (fun x => !s.nonEvict x) with
      | some f => simp [LRUKReplacer.Evict, hcz, hfind, hfind2] at h
      | none => simp [LRUKReplacer.Evict, hcz, hfind, hfind2]

/-- C10: when the free list is empty and the replacer has no evictable
victim, `NewPage` returns null leaving the pool state — page table, free
list, replacer, frames, disk, and the page-id allocator — completely
unchanged (so the next successful `NewPage` obtains the id this call would
have obtained); the out-parameter is never written (the model returns
`none`). -/
theorem newpage_exhausted_no_change (s : BufferPoolManager)
    (hfree : s.freeList = []) (hev : (s.replacer.Evict).1 = none) :
    s.NewPage = (s, none) := by
  have hev2 := evict_fst_none s.replacer hev
  simp [BufferPoolManager.NewPage, hfree, hev2]
  rw [← hfree]

/-- Witness for C10: a pool of size 1 whose only frame is pinned by
`NewPage`; the next `NewPage` fails and changes nothing. -/
theorem newpage_exhausted_no_change_witness :
    (BufferPoolManager.init 1 4 2).NewPage.1.NewPage =
      ((BufferPoolManager.init 1 4 2).NewPage.1, none) :=
  newpage_exhausted_no_change (BufferPoolManager.init 1 4 2).NewPage.1 rfl rfl

/-- C7: `DeletePage` returns success and changes nothing on a non-resident
id; returns failure and changes nothing on a pinned page; and otherwise
removes the frame from the replacer, erases the page-table entry, pushes
the frame onto the free list, resets the frame's memory and metadata,
records the deallocated id, and returns success — without any disk write
even when the page was dirty. -/
theorem deletepage_cases (s : BufferPoolManager) (pid : Int) :
    (s.pageTable pid = none → s.DeletePage pid = (s, true)) ∧
    (∀ fid, s.pageTable pid = some fid → 0 < (s.getPage fid).pinCount →
      s.DeletePage pid = (s, false)) ∧
    (∀ fid, s.pageTable pid = some fid → ¬ 0 < (s.getPage fid).pinCount →
      s.DeletePage pid = ({ s with
        replacer := s.replacer.Remove fid,
        pageTable := fun q => if q = pid then none else s.pageTable q,
        freeList := s.freeList ++ [fid],
        pages := s.pages.set fid (Page.reset s.pageSize),
        deallocated := s.deallocated ++ [pid] }, true) ∧
      (s.DeletePage pid).1.disk = s.disk) := by
  refine ⟨?_, ?_, ?_⟩
  · intro h
    simp [BufferPoolManager.DeletePage, h]
  · intro fid h hpin
    simp [BufferPoolManager.DeletePage, h, hpin]
  · intro fid h hpin
    constructor
    · simp [BufferPoolManager.DeletePage, h, hpin]
    · simp [BufferPoolManager.DeletePage, h, hpin]

/-- Witness for C7 at a concrete pool: deleting the page just created by
`NewPage` (pin count 1) fails and leaves the pool unchanged. -/
theorem deletepage_cases_witness :
    (BufferPoolManager.init 1 4 2).NewPage.1.DeletePage 0 =
      ((BufferPoolManager.init 1 4 2).NewPage.1, false) :=
  (deletepage_cases (BufferPoolManager.init 1 4 2).NewPage.1 0).2.1 0 rfl (by decide)

/-- C5 counterexample: the scenario exactly as claimed — `new_page→id0`
(pool of 3 frames, page size 4, `k = 2`; id 0 lands in frame 2), write byte
`"A"` (65) at offset 0, `unpin(id0, dirty)`, then three more `new_page`
calls (ids 1, 2, 3; the last evicts id 0) — leaves ids 1, 2, 3 all pinned,
so `fetch_page(id0)` finds no evictable victim and returns null, not a frame
whose bytes begin with `"A"`. -/
theorem bufferpool_literal_scenario_fails :
    (BufferPoolManager.init 3 4 2).NewPage.2 = some (0, 2) ∧
    ((((BufferPoolManager.init 3 4 2).NewPage.1.writeByte 2 0 65).UnpinPage 0
        true).1.NewPage.1.NewPage.1.NewPage.1.FetchPage 0).2 = none :=
  ⟨rfl, rfl⟩

/-- C5 (amended): whenever `NewPage` or `FetchPage` (on a miss) evicts a
dirty victim, the victim's bytes are written to disk before the frame is
reused; and the claimed end-to-end scenario succeeds once a page is
unpinned before the final fetch: after `new_page→id0` (frame 2), writing
`"A"` at offset 0, `unpin(id0, dirty)`, `new_page→id1`, `new_page→id2`,
`new_page→id3` (which evicts id 0 and persists its bytes), and
`unpin(id1, clean)`, `fetch_page(id0)` returns frame 1 whose bytes begin
with `"A"` (65), read back from the disk image written at eviction. -/
theorem bufferpool_dirty_victim_writeback :
    (∀ (s : BufferPoolManager) (fid : Nat) (r2 : LRUKReplacer),
      s.freeList = [] → s.replacer.Evict = (some fid, r2) →
      (s.getPage fid).isDirty = true →
      (s.NewPage).1.disk (s.getPage fid).pageId = (s.getPage fid).data) ∧
    (∀ (s : BufferPoolManager) (pid : Int) (fid : Nat) (r2 : LRUKReplacer),
      s.pageTable pid = none → s.freeList = [] →
      s.replacer.Evict = (some fid, r2) → (s.getPage fid).isDirty = true →
      (s.FetchPage pid).1.disk (s.getPage fid).pageId = (s.getPage fid).data) ∧
    (((((BufferPoolManager.init 3 4 2).NewPage.1.writeByte 2 0 65).UnpinPage 0
          true).1.NewPage.1.NewPage.1.NewPage.1.UnpinPage 1 false).1.FetchPage 0).2
        = some 1 ∧
    ((((((BufferPoolManager.init 3 4 2).NewPage.1.writeByte 2 0 65).UnpinPage 0
          true).1.NewPage.1.NewPage.1.NewPage.1.UnpinPage 1
          false).1.FetchPage 0).1.getPage 1).data.head? = some 65 ∧
    (((BufferPoolManager.init 3 4 2).NewPage.1.writeByte 2 0 65).UnpinPage 0
        true).1.NewPage.1.NewPage.1.NewPage.1.disk 0 = [65, 0, 0, 0] := by
  refine ⟨?_, ?_, rfl, rfl, rfl⟩
  · intro s fid r2 hfree hev hdirty
    simp [BufferPoolManager.getPage, List.getD] at hdirty
    simp [BufferPoolManager.NewPage, BufferPoolManager.newPageFinish,
      BufferPoolManager.getPage, List.getD, hfree, hev, hdirty]
  · intro s pid fid r2 hpt hfree hev hdirty
    simp [BufferPoolManager.getPage, List.getD] at hdirty
    simp [BufferPoolManager.FetchPage, BufferPoolManager.fetchPageFinish,
      BufferPoolManager.getPage, List.getD, hpt, hfree, hev, hdirty]

/-- Witness for C5's general write-back clause at the concrete state just
before the fourth `new_page`: the victim (frame 2, holding page 0, dirty,
bytes `"A\0\0\0"`) has its bytes on disk after the call. -/
theorem bufferpool_dirty_victim_writeback_witness :
    (((BufferPoolManager.init 3 4 2).NewPage.1.writeByte 2 0 65).UnpinPage 0
        true).1.NewPage.1.NewPage.1.NewPage.1.disk
      ((((BufferPoolManager.init 3 4 2).NewPage.1.writeByte 2 0 65).UnpinPage 0
        true).1.NewPage.1.NewPage.1.getPage 2).pageId =
    ((((BufferPoolManager.init 3 4 2).NewPage.1.writeByte 2 0 65).UnpinPage 0
        true).1.NewPage.1.NewPage.1.getPage 2).data :=
  bufferpool_dirty_victim_writeback.1
    (((BufferPoolManager.init 3 4 2).NewPage.1.writeByte 2 0 65).UnpinPage 0
        true).1.NewPage.1.NewPage.1
    2 _ rfl rfl rfl
